import Mathlib

/-!
# miniupnpd permission rules (`miniupnpd/upnppermissions.c`)

A shallow embedding of the permission engine of miniupnpd:

* `read_permission_line`   parses one configuration line into a rule,
* `match_permission` and `check_upnp_rule_against_permissions`   decide one request,
* `get_permitted_ext_ports`   fills the 65536-bit map of permitted external ports.

Conventions of the embedding.

* A C string is the list of its characters before the terminating NUL; a pointer into
  the string is the suffix that starts at it, so the empty list is a pointer to the NUL.
* `u_short` and `uint32_t` values are natural numbers; `s_addr` values are represented by
  the number whose big-endian bytes are the four address bytes, so that `htonl` and
  `ntohl` are the identity on the representation (bitwise `&` and `==` do not depend on
  the byte order).
* The regular expression engine of the C library (`regcomp`, `regexec`) is a parameter.
-/

namespace MiniUPnP

/-! ## Data model -/

/-- Modelled from the spec: the two rule actions (allow, deny). The enumeration is declared
in the header `upnppermissions.h`, which is missing; the code assigns `UPNPPERM_ALLOW`
and `UPNPPERM_DENY` to `perm->type` and compares `perm->type` with `UPNPPERM_ALLOW`. -/
inductive upnpperm_type where
  | UPNPPERM_ALLOW
  | UPNPPERM_DENY
deriving DecidableEq, Repr

open upnpperm_type

/-- Modelled from the spec: `struct upnpperm`, declared in the missing header
`upnppermissions.h`, with the members the code reads and writes. `address` and `mask` are
the `s_addr` members. `re` is the pattern source (`none` is `NULL`); the compiled `regex`
member is determined by `re` (it is compiled from the very text that is copied into
`re`), so it is represented by its source. -/
structure upnpperm where
  type : upnpperm_type
  eport_min : Nat
  eport_max : Nat
  address : Nat
  mask : Nat
  iport_min : Nat
  iport_max : Nat
  re : Option (List Char)
deriving DecidableEq, Repr

/-- The port members of a rule are `u_short`: each is below `65536`. -/
def u_short_fields (perm : upnpperm) : Prop :=
  perm.eport_min < 65536 ∧ perm.eport_max < 65536 ∧
  perm.iport_min < 65536 ∧ perm.iport_max < 65536

instance (perm : upnpperm) : Decidable (u_short_fields perm) := by
  unfold u_short_fields
  infer_instance

/-- The regular expression functions of the C library, as far as the code uses them.
`regcomp pattern` is the return value of
`regcomp(&regex, pattern, REG_EXTENDED | REG_ICASE | REG_NOSUB)` (`0` on success) and
`regexec pattern desc` the return value of `regexec(&regex, desc, 0, NULL, 0)` for the
expression compiled from `pattern`. -/
structure RegexLib where
  regcomp : List Char → Int
  regexec : List Char → List Char → Int

/-- The value of `REG_NOMATCH` in `regex.h`. -/
def REG_NOMATCH : Int := 1

/-! ## Rule matcher -/

/-- The function `match_permission` (lines 260-275): `1` if the request matches the rule,
`0` otherwise. `desc = none` is the `NULL` description. -/
def match_permission (L : RegexLib) (perm : upnpperm)
    (eport address iport : Nat) (desc : Option (List Char)) : Int :=
  if eport < perm.eport_min ∨ perm.eport_max < eport then 0
  else if iport < perm.iport_min ∨ perm.iport_max < iport then 0
  else if (address &&& perm.mask) ≠ (perm.address &&& perm.mask) then 0
  else
    match desc, perm.re with
    | some d, some re => if L.regexec re d = REG_NOMATCH then 0 else 1
    | _, _ => 1

/-- The function `check_upnp_rule_against_permissions` (lines 294-314). The array
`permary` of `n_perms` rules is the list; the loop runs over it from index `0`. -/
def check_upnp_rule_against_permissions (L : RegexLib) :
    List upnpperm → Nat → Nat → Nat → Option (List Char) → Int
  | [], _, _, _, _ => 1
  | perm :: permary, eport, address, iport, desc =>
    if match_permission L perm eport address iport desc ≠ 0 then
      (if perm.type = UPNPPERM_ALLOW then 1 else 0)
    else
      check_upnp_rule_against_permissions L permary eport address iport desc

/-! ## Bitmap of permitted external ports -/

/-- Number of 32-bit words of the `allowed` array (`65536 / 8` bytes). -/
def allowed_words : Nat := 65536 / 32

/-- The statement `allowed[k] = v`; `none` when `k` is outside the array. -/
def store_word (allowed : List Nat) (k v : Nat) : Option (List Nat) :=
  if k < allowed.length then some (allowed.set k v) else none

/-- One bit at once (lines 346-349): `allowed[j / 32] |= (1 << (j % 32))` for an allow
rule, `allowed[j / 32] &= ~(1 << (j % 32))` for a deny rule; `none` when `j / 32` is
outside the array. -/
def one_bit (type : upnpperm_type) (allowed : List Nat) (j : Nat) : Option (List Nat) :=
  match allowed[j / 32]? with
  | none => none
  | some w =>
    if type = UPNPPERM_ALLOW then
      some (allowed.set (j / 32) (w ||| (1 <<< (j % 32))))
    else
      some (allowed.set (j / 32) (w &&& (0xffffffff ^^^ (1 <<< (j % 32)))))

/-- The `do ... while ((j % 32) != 0 && (j <= eport_max))` loop (lines 343-352), returning
the array and the value of `j` on exit. The first argument bounds the number of
iterations; `32` always suffices, since the loop stops at the next multiple of 32. -/
def bit_loop (type : upnpperm_type) (eport_max : Nat) :
    Nat → List Nat → Nat → Option (List Nat × Nat)
  | 0, _, _ => none
  | fuel + 1, allowed, j =>
    match one_bit type allowed j with
    | none => none
    | some allowed1 =>
      if (j + 1) % 32 ≠ 0 ∧ j + 1 ≤ eport_max then
        bit_loop type eport_max fuel allowed1 (j + 1)
      else
        some (allowed1, j + 1)

/-- The loop `for (j = eport_min; j <= eport_max; )` (lines 333-354) from the current
value of `j`. The first argument bounds the number of iterations. -/
def port_loop (type : upnpperm_type) (eport_max : Nat) :
    Nat → List Nat → Nat → Option (List Nat)
  | 0, allowed, j => if j ≤ eport_max then none else some allowed
  | fuel + 1, allowed, j =>
    if j ≤ eport_max then
      if j % 32 = 0 ∧ eport_max ≥ j + 31 then
        -- 32 bits at once
        match store_word allowed (j / 32)
            (if type = UPNPPERM_ALLOW then 0xffffffff else 0) with
        | none => none
        | some allowed1 => port_loop type eport_max fuel allowed1 (j + 32)
      else
        match bit_loop type eport_max 32 allowed j with
        | none => none
        | some (allowed1, j1) => port_loop type eport_max fuel allowed1 j1
    else some allowed

/-- The body of the loop over the rules (lines 328-354): the two `continue` tests, then
the loop over the external ports of the rule. Every iteration of that loop advances `j`,
so `eport_max + 1` iterations suffice. -/
def apply_perm (addr iport : Nat) (perm : upnpperm) (allowed : List Nat) :
    Option (List Nat) :=
  if (addr &&& perm.mask) ≠ (perm.address &&& perm.mask) then some allowed
  else if iport < perm.iport_min ∨ perm.iport_max < iport then some allowed
  else port_loop perm.type perm.eport_max (perm.eport_max + 1) allowed perm.eport_min

/-- The loop over the rules in the order given. -/
def perm_loop (addr iport : Nat) : List upnpperm → List Nat → Option (List Nat)
  | [], allowed => some allowed
  | perm :: rest, allowed =>
    match apply_perm addr iport perm allowed with
    | none => none
    | some allowed1 => perm_loop addr iport rest allowed1

/-- The function `get_permitted_ext_ports` (lines 316-356): `memset` sets every bit of
the array, then the rules are visited from index `n_perms - 1` down to `0`. The result
is the final content of `allowed`, or `none` if an access outside the array or an
exhausted iteration bound was met. -/
def get_permitted_ext_ports (permary : List upnpperm) (addr iport : Nat) :
    Option (List Nat) :=
  perm_loop addr iport permary.reverse (List.replicate allowed_words 0xffffffff)

/-- Bit `p` of the bitmap: bit `p % 32` of word `p / 32`. -/
def port_bit (allowed : List Nat) (p : Nat) : Bool :=
  (allowed.getD (p / 32) 0).testBit (p % 32)

/-- Bit-by-bit reference for one rule: sets (allow) or clears (deny) the bits of the `n`
ports `j`, `j + 1`, ..., `j + n - 1`, one port at a time. -/
def naive_ports (type : upnpperm_type) : Nat → List Nat → Nat → Option (List Nat)
  | 0, allowed, _ => some allowed
  | n + 1, allowed, j =>
    match one_bit type allowed j with
    | none => none
    | some allowed1 => naive_ports type n allowed1 (j + 1)

/-- Bit-by-bit reference for the body of the loop over the rules: the same two tests,
then every port of `[eport_min, eport_max]` one at a time. -/
def naive_apply_perm (addr iport : Nat) (perm : upnpperm) (allowed : List Nat) :
    Option (List Nat) :=
  if (addr &&& perm.mask) ≠ (perm.address &&& perm.mask) then some allowed
  else if iport < perm.iport_min ∨ perm.iport_max < iport then some allowed
  else naive_ports perm.type (perm.eport_max + 1 - perm.eport_min) allowed perm.eport_min

/-- Bit-by-bit reference for the loop over the rules in the order given. -/
def naive_perm_loop (addr iport : Nat) : List upnpperm → List Nat → Option (List Nat)
  | [], allowed => some allowed
  | perm :: rest, allowed =>
    match naive_apply_perm addr iport perm allowed with
    | none => none
    | some allowed1 => naive_perm_loop addr iport rest allowed1

/-- Bit-by-bit reference for `get_permitted_ext_ports`: every bit set, then the rules from
the last to the first, each applied one port at a time. -/
def naive_permitted_ext_ports (permary : List upnpperm) (addr iport : Nat) :
    Option (List Nat) :=
  naive_perm_loop addr iport permary.reverse (List.replicate allowed_words 0xffffffff)

/-- The array has `65536 / 32` words and every word is a 32-bit value. -/
def words_ok (allowed : List Nat) : Prop :=
  allowed.length = allowed_words ∧ ∀ (k w : Nat), allowed[k]? = some w → w < 2 ^ 32

/-- The array `allowed1` is `allowed` with the bits of the ports `lo ≤ p < hi` set (allow)
or cleared (deny) and every other bit unchanged. -/
def range_written (type : upnpperm_type) (lo hi : Nat) (allowed allowed1 : List Nat) :
    Prop :=
  words_ok allowed1 ∧
  ∀ p, port_bit allowed1 p =
    if lo ≤ p ∧ p < hi then decide (type = UPNPPERM_ALLOW) else port_bit allowed p

/-! ## C library functions used by the parser -/

/-- The function `isdigit` of the C locale. -/
def isdigit (c : Char) : Bool := 48 ≤ c.toNat && c.toNat ≤ 57

/-- The function `isspace` of the C locale: space, and the controls from horizontal tab
(9) to carriage return (13). -/
def isspace (c : Char) : Bool := c.toNat = 32 || (9 ≤ c.toNat && c.toNat ≤ 13)

/-- The test `isdigit(*p)`; at the terminating NUL it is false. -/
def isdigit_at (p : List Char) : Bool :=
  match p with
  | [] => false
  | c :: _ => isdigit c

/-- Largest value of a C `int`. -/
def INT_MAX : Int := 2147483647

/-- Smallest value of a C `int`. -/
def INT_MIN : Int := -2147483648

/-- The function `atoi`: optional white space, an optional sign, then decimal digits.
The result is `none` when the value is not representable as an `int`, a case in which
the C standard leaves the behaviour of `atoi` undefined. -/
def atoi (s : List Char) : Option Int :=
  let s1 := s.dropWhile isspace
  let neg : Bool := s1.head? = some '-'
  let s2 := if s1.head? = some '-' ∨ s1.head? = some '+' then s1.drop 1 else s1
  let v : Nat := (s2.takeWhile isdigit).foldl (fun acc c => 10 * acc + (c.toNat - 48)) 0
  let i : Int := if neg then - (v : Int) else (v : Int)
  if INT_MIN ≤ i ∧ i ≤ INT_MAX then some i else none

/-- The conversion `(u_short)i`. -/
def to_u_short (i : Int) : Nat := (i % 65536).toNat

/-- Splits a text at every dot. -/
def split_dots : List Char → List (List Char)
  | [] => [[]]
  | c :: cs =>
    match split_dots cs with
    | [] => [[c]]
    | part :: parts => if c = '.' then [] :: part :: parts else (c :: part) :: parts

/-- One numeric part of an address for `inet_aton`: a non-empty run of digits, read in
base 8 when it has a leading `0` and more than one digit, in base 10 otherwise. -/
def aton_part (part : List Char) : Option Nat :=
  match part with
  | [] => none
  | c :: cs =>
    if c = '0' ∧ cs ≠ [] then
      if cs.all (fun d => 48 ≤ d.toNat && d.toNat ≤ 55) then
        some (cs.foldl (fun acc d => 8 * acc + (d.toNat - 48)) 0)
      else none
    else if (c :: cs).all isdigit then
      some ((c :: cs).foldl (fun acc d => 10 * acc + (d.toNat - 48)) 0)
    else none

/-- The function `inet_aton` of the C library on the texts that `read_permission_line`
passes to it, which consist of digits and dots only: one to four numeric parts separated
by single dots (`a.b.c.d`, `a.b.c`, `a.b` or `a`), every part but the last at most 255 and
the last one filling the remaining bytes. The result is the address (`s_addr`, see the
conventions above), or `none` when `inet_aton` returns 0. -/
def inet_aton (cp : List Char) : Option Nat :=
  match (split_dots cp).map aton_part with
  | [some a] => if a ≤ 0xffffffff then some a else none
  | [some a, some b] =>
    if a ≤ 255 ∧ b ≤ 0xffffff then some (a * 2 ^ 24 + b) else none
  | [some a, some b, some c] =>
    if a ≤ 255 ∧ b ≤ 255 ∧ c ≤ 0xffff then some (a * 2 ^ 24 + b * 2 ^ 16 + c) else none
  | [some a, some b, some c, some d] =>
    if a ≤ 255 ∧ b ≤ 255 ∧ c ≤ 255 ∧ d ≤ 255 then
      some (a * 2 ^ 24 + b * 2 ^ 16 + c * 2 ^ 8 + d)
    else none
  | _ => none

/-! ## Rule parser -/

/-- How a run of `read_permission_line` (or of one of its parts) ends: with a value
(`return 0` for the whole function), with `return -1`, or in a situation the C language
leaves undefined (a read past the terminating NUL of the line, `atoi` on a number that
does not fit an `int`). -/
inductive Outcome (α : Type) where
  | ok (a : α)
  | error
  | undefined
deriving DecidableEq, Repr

/-- Sequencing: the first `error` or `undefined` ends the run. -/
def Outcome.bind {α β : Type} (x : Outcome α) (f : α → Outcome β) : Outcome β :=
  match x with
  | .ok a => f a
  | .error => .error
  | .undefined => .undefined

/-- The characters of the text before its first NUL, the content of the C string. -/
def c_string (buf : List Char) : List Char := buf.takeWhile (fun c => c.toNat ≠ 0)

/-- First token (lines 36-49): `memcmp(p, "allow", 5)`, then `memcmp(p, "deny", 4)`.
Returns the rule type and `p` after the keyword. -/
def action_token (p : List Char) : Outcome (upnpperm_type × List Char) :=
  if p.take 5 = ['a', 'l', 'l', 'o', 'w'] then .ok (UPNPPERM_ALLOW, p.drop 5)
  else if p.take 4 = ['d', 'e', 'n', 'y'] then .ok (UPNPPERM_DENY, p.drop 4)
  else .error

/-- Second token (lines 54-88): `eport` or `eport_min-eport_max`. Returns `eport_min`,
`eport_max` and `p = q + 1`. After `*q = 0` the text at `p` is the run of digits that
ends at `q`, which is what `atoi` gets. In the range case `q` may stand on the
terminating NUL, and then `q + 1` is past the end of the line. -/
def eport_token (p : List Char) : Outcome (Nat × Nat × List Char) :=
  if isdigit_at p = false then .error
  else
    match p.dropWhile isdigit with
    | [] => .error
    | c :: q1 =>
      if c = '-' then
        match atoi (p.takeWhile isdigit) with
        | none => .undefined
        | some i =>
          if i > 65535 then .error
          else
            match atoi (q1.takeWhile isdigit) with
            | none => .undefined
            | some i2 =>
              if i2 > 65535 then .error
              else if to_u_short i > to_u_short i2 then .error
              else
                match q1.dropWhile isdigit with
                | [] => .undefined
                | _ :: p1 => .ok (to_u_short i, to_u_short i2, p1)
      else if isspace c then
        match atoi (p.takeWhile isdigit) with
        | none => .undefined
        | some i =>
          if i > 65535 then .error
          else .ok (to_u_short i, to_u_short i, q1)
      else .error

/-- The test `isdigit(*q) || (*q == '.')` of line 95. -/
def is_digit_or_dot (c : Char) : Bool := isdigit c || c = '.'

/-- The mask for a bit count: `htonl(n_bits ? (0xffffffffu << (32 - n_bits)) : 0)`, the
shift being on 32 bits. -/
def mask_of_bits (n_bits : Int) : Nat :=
  if n_bits ≠ 0 then (0xffffffff <<< (32 - n_bits).toNat) % 2 ^ 32 else 0

/-- Third token (lines 93-137): `ip/mask` or `ip`. Returns `address`, `mask` and
`p = q + 1`. -/
def subnet_token (p : List Char) : Outcome (Nat × Nat × List Char) :=
  if isdigit_at p = false then .error
  else
    match p.dropWhile is_digit_or_dot with
    | [] => .error
    | c :: q1 =>
      if c = '/' then
        match inet_aton (p.takeWhile is_digit_or_dot) with
        | none => .error
        | some address =>
          -- q++; p = q; while(isdigit(*q)) q++;
          match q1.dropWhile isdigit with
          | [] => .error
          | c2 :: q2 =>
            if c2 = '.' then
              -- while(*q == '.' || isdigit(*q)) q++;
              match (c2 :: q2).dropWhile (fun x => x = '.' || isdigit x) with
              | [] => .error
              | c3 :: q3 =>
                if isspace c3 = false then .error
                else
                  match inet_aton (q1.takeWhile isdigit ++
                      (c2 :: q2).takeWhile (fun x => x = '.' || isdigit x)) with
                  | none => .error
                  | some mask => .ok (address, mask, q3)
            else if isspace c2 = false then .error
            else
              match atoi (q1.takeWhile isdigit) with
              | none => .undefined
              | some n_bits =>
                if n_bits > 32 then .error
                else .ok (address, mask_of_bits n_bits, q2)
      else if isspace c then
        match inet_aton (p.takeWhile is_digit_or_dot) with
        | none => .error
        | some address => .ok (address, 0xffffffff, q1)
      else .error

/-- Fourth token (lines 142-175): `iport` or `iport_min-iport_max`. Returns `iport_min`,
`iport_max` and the text at `p` when the block is left. No statement of the block moves
`p` past the token: in the range case `p` is at the first character after the dash, in
the other case at the first digit, and `*q = 0` ends the text at `p` after the digits. -/
def iport_token (p : List Char) : Outcome (Nat × Nat × List Char) :=
  if isdigit_at p = false then .error
  else
    match p.dropWhile isdigit with
    | c :: q1 =>
      if c = '-' then
        match atoi (p.takeWhile isdigit) with
        | none => .undefined
        | some i =>
          if i > 65535 then .error
          else
            match atoi (q1.takeWhile isdigit) with
            | none => .undefined
            | some i2 =>
              if i2 > 65535 then .error
              else if to_u_short i > to_u_short i2 then .error
              else .ok (to_u_short i, to_u_short i2, q1.takeWhile isdigit)
      else if isspace c then
        match atoi (p.takeWhile isdigit) with
        | none => .undefined
        | some i =>
          if i > 65535 then .error
          else .ok (to_u_short i, to_u_short i, p.takeWhile isdigit)
      else .error
    | [] =>
      match atoi (p.takeWhile isdigit) with
      | none => .undefined
      | some i =>
        if i > 65535 then .error
        else .ok (to_u_short i, to_u_short i, p.takeWhile isdigit)

/-- Fifth token (lines 178-203): skip white space at `p`; at the end of the text the rule
has no pattern, otherwise the text at `p` is copied into `re` and compiled. The failure
of `strdup` for lack of memory is not modelled. -/
def regex_token (L : RegexLib) (p : List Char) : Outcome (Option (List Char)) :=
  match p.dropWhile isspace with
  | [] => .ok none
  | c :: cs => if L.regcomp (c :: cs) ≠ 0 then .error else .ok (some (c :: cs))

/-- The first four tokens (lines 33-175): the rule type, `eport_min`, `eport_max`,
`address`, `mask`, `iport_min`, `iport_max`, and the text at `p` when line 177 is
reached. -/
def four_tokens (line : List Char) :
    Outcome (upnpperm_type × Nat × Nat × Nat × Nat × Nat × Nat × List Char) :=
  (action_token ((c_string line).dropWhile isspace)).bind fun (type, p) =>
  (eport_token (p.dropWhile isspace)).bind fun (eport_min, eport_max, p) =>
  (subnet_token (p.dropWhile isspace)).bind fun (address, mask, p) =>
  (iport_token (p.dropWhile isspace)).bind fun (iport_min, iport_max, p) =>
  .ok (type, eport_min, eport_max, address, mask, iport_min, iport_max, p)

/-- The function `read_permission_line` (lines 25-213) on the line `line`: the rule
written to `*perm` when it returns 0, `error` when it returns -1. -/
def read_permission_line (L : RegexLib) (line : List Char) : Outcome upnpperm :=
  (four_tokens line).bind
    fun (type, eport_min, eport_max, address, mask, iport_min, iport_max, p) =>
  (regex_token L p).bind fun re =>
  .ok { type := type, eport_min := eport_min, eport_max := eport_max,
        address := address, mask := mask,
        iport_min := iport_min, iport_max := iport_max, re := re }

/-- The return value of `read_permission_line`: `0`, `-1`, or none when the run is
undefined. -/
def return_value {α : Type} : Outcome α → Option Int
  | .ok _ => some 0
  | .error => some (-1)
  | .undefined => none

/-! ## Stages of the parser -/

/-- The first two tokens on the text `x` of the line (lines 33-90): the rule type,
`eport_min`, `eport_max`, and the text at `p` when line 93 is reached, where the subnet
token is read. -/
def two_tokens_at (x : List Char) : Outcome (upnpperm_type × Nat × Nat × List Char) :=
  (action_token (x.dropWhile isspace)).bind fun (type, p) =>
  (eport_token (p.dropWhile isspace)).bind fun (eport_min, eport_max, p) =>
  .ok (type, eport_min, eport_max, p.dropWhile isspace)

/-- The first three tokens on the text `x` of the line (lines 33-141): the rule type,
`eport_min`, `eport_max`, `address`, `mask`, and the text at `p` when line 142 is
reached, where the internal port token is read. -/
def three_tokens_at (x : List Char) :
    Outcome (upnpperm_type × Nat × Nat × Nat × Nat × List Char) :=
  (two_tokens_at x).bind fun (type, eport_min, eport_max, p) =>
  (subnet_token p).bind fun (address, mask, p) =>
  .ok (type, eport_min, eport_max, address, mask, p.dropWhile isspace)

/-- The first two tokens of a line, see `two_tokens_at`. -/
def two_tokens (line : List Char) : Outcome (upnpperm_type × Nat × Nat × List Char) :=
  two_tokens_at (c_string line)

/-- The first three tokens of a line, see `three_tokens_at`. -/
def three_tokens (line : List Char) :
    Outcome (upnpperm_type × Nat × Nat × Nat × Nat × List Char) :=
  three_tokens_at (c_string line)

/-- The text is a complete port token: a non-empty run of digits, or two such runs
separated by a dash. -/
def is_port_token (tok : List Char) : Bool :=
  tok.takeWhile isdigit ≠ [] &&
  (tok.dropWhile isdigit = [] ||
    (tok.dropWhile isdigit).head? = some '-' &&
    (tok.dropWhile isdigit).tail ≠ [] &&
    (tok.dropWhile isdigit).tail.all isdigit)

/-- The text begins with a white space character. -/
def begins_with_space (t : List Char) : Bool :=
  match t with
  | [] => false
  | c :: _ => isspace c

/-- The text consists of digits and dots and begins with a digit, as the address part of
a subnet token does. -/
def is_address_text (a : List Char) : Bool := isdigit_at a && a.all is_digit_or_dot

/-- The decimal text of a number. -/
def decimal (n : Nat) : List Char := Nat.toDigits 10 n

/-- The dotted-quad text of a 32-bit value, most significant byte first. -/
def dotted_quad (m : Nat) : List Char :=
  decimal (m / 2 ^ 24 % 256) ++ ['.'] ++ decimal (m / 2 ^ 16 % 256) ++ ['.'] ++
  decimal (m / 2 ^ 8 % 256) ++ ['.'] ++ decimal (m % 256)

/-- The 32-bit value whose `n` most significant bits are set. -/
def prefix_mask (n : Nat) : Nat := 2 ^ 32 - 2 ^ (32 - n)

/-! ## Rule dump -/

/-- Left padding with zeros to a minimal width, as `%02d` and `%08x` do. -/
def pad_zeros (width : Nat) (digits : List Char) : List Char :=
  List.replicate (width - digits.length) '0' ++ digits

/-- The conversion `%hu`. -/
def fmt_hu (n : Nat) : List Char := Nat.toDigits 10 (n % 65536)

/-- The conversion `%08x` of a 32-bit value. -/
def fmt_08x (n : Nat) : List Char := pad_zeros 8 (Nat.toDigits 16 (n % 2 ^ 32))

/-- What `write_permlist` writes for the rule of index `i` (lines 238-252): the text
formatted by `"%02d %s %hu-%hu %08x/%08x %hu-%hu"`, then a space and the pattern source
if the rule has one, then a newline. -/
def permlist_line (i : Nat) (perm : upnpperm) : List Char :=
  pad_zeros 2 (Nat.toDigits 10 i) ++ [' '] ++
  (if perm.type = UPNPPERM_ALLOW then ['a', 'l', 'l', 'o', 'w'] else ['d', 'e', 'n', 'y']) ++
  [' '] ++ fmt_hu perm.eport_min ++ ['-'] ++ fmt_hu perm.eport_max ++
  [' '] ++ fmt_08x perm.address ++ ['/'] ++ fmt_08x perm.mask ++
  [' '] ++ fmt_hu perm.iport_min ++ ['-'] ++ fmt_hu perm.iport_max ++
  (match perm.re with
   | some re => ' ' :: re
   | none => []) ++
  [Char.ofNat 10]

/-- The loop of `write_permlist` from index `i` on. -/
def permlist_lines : Nat → List upnpperm → List Char
  | _, [] => []
  | i, perm :: rest => permlist_line i perm ++ permlist_lines (i + 1) rest

/-- The function `write_permlist` (lines 227-254): the characters written to `fd`. -/
def write_permlist (permary : List upnpperm) : List Char :=
  "Permissions :".toList ++ [Char.ofNat 10] ++ permlist_lines 0 permary

/-- The address `a.b.c.d` as an `s_addr` value (see the conventions above). -/
def ipv4 (a b c d : Nat) : Nat := a * 2 ^ 24 + b * 2 ^ 16 + c * 2 ^ 8 + d

/-! ## Sample rules and lines -/

/-- Sample rule: allow external ports 10-100 for every internal endpoint. -/
def rule_allow_10_100 : upnpperm :=
  { type := UPNPPERM_ALLOW, eport_min := 10, eport_max := 100, address := 0, mask := 0,
    iport_min := 0, iport_max := 65535, re := none }

/-- Sample rule: deny external ports 0-31 for every internal endpoint. -/
def rule_deny_0_31 : upnpperm :=
  { type := UPNPPERM_DENY, eport_min := 0, eport_max := 31, address := 0, mask := 0,
    iport_min := 0, iport_max := 65535, re := none }

/-- Sample rule: deny external ports 1-65535 for internal ports 1024-65535. -/
def rule_deny_1_65535 : upnpperm :=
  { type := UPNPPERM_DENY, eport_min := 1, eport_max := 65535, address := 0, mask := 0,
    iport_min := 1024, iport_max := 65535, re := none }

/-- A regular expression library that accepts every pattern and never reports a
mismatch; it serves as a concrete instance where a theorem holds for every library. -/
def permissive_regex : RegexLib :=
  { regcomp := fun _ => 0, regexec := fun _ _ => 0 }

/-- First line of the end-to-end scenario. -/
def line_allow_lan : List Char := "allow 1024-65535 192.168.0.0/16 1024-65535".toList

/-- Second line of the end-to-end scenario. -/
def line_deny_all : List Char := "deny 0-65535 0.0.0.0/0 0-65535".toList

/-- The rule that `read_permission_line` builds from `line_allow_lan`. -/
def rule_allow_lan : upnpperm :=
  { type := UPNPPERM_ALLOW, eport_min := 1024, eport_max := 65535,
    address := ipv4 192 168 0 0, mask := 0xffff0000,
    iport_min := 1024, iport_max := 65535, re := some "65535".toList }

/-- The rule that `read_permission_line` builds from `line_deny_all`. -/
def rule_deny_all : upnpperm :=
  { type := UPNPPERM_DENY, eport_min := 0, eport_max := 65535,
    address := 0, mask := 0,
    iport_min := 0, iport_max := 65535, re := some "65535".toList }

/-- A line with a single internal port and nothing after it. -/
def line_host_80 : List Char := "allow 80 192.168.1.10 80".toList

/-- The rule that `read_permission_line` builds from `line_host_80`. -/
def rule_host_80 : upnpperm :=
  { type := UPNPPERM_ALLOW, eport_min := 80, eport_max := 80,
    address := ipv4 192 168 1 10, mask := 0xffffffff,
    iport_min := 80, iport_max := 80, re := some "80".toList }

/-- A line with a description pattern after the internal port. -/
def line_camera : List Char := "allow 8080 192.168.1.20 554 ^camera".toList

/-- A line that ends right after an external port range. -/
def line_range_at_end : List Char := "allow 1-2".toList

/-- A line whose external port range is followed by a letter. -/
def line_range_letter : List Char := "allow 1-2x 1.2.3.4 5".toList

/-- A line whose external port range starts with a number that does not fit an `int`. -/
def line_huge_range : List Char := "allow 4294967296-5 1.2.3.4 5".toList

/-- A line whose external port does not fit an `int`. -/
def line_huge_port : List Char := "allow 4294967296 1.2.3.4 5".toList

/-- A line whose subnet has a slash and an empty mask. -/
def line_empty_mask : List Char := "allow 5 1.2.3.4/ 5".toList

/-- A line whose keyword is glued to the external port. -/
def line_glued_keyword : List Char := "allow5 1.2.3.4 5".toList

/-- A line with a bit-count mask. -/
def line_net_24 : List Char := "allow 0-65535 192.168.1.0/24 0-65535".toList

/-- The same line as `line_net_24` with the mask in dotted-quad form. -/
def line_net_24_dotted : List Char :=
  "allow 0-65535 192.168.1.0/255.255.255.0 0-65535".toList

/-- The rule that `read_permission_line` builds from `line_net_24`. -/
def rule_net_24 : upnpperm :=
  { type := UPNPPERM_ALLOW, eport_min := 0, eport_max := 65535,
    address := ipv4 192 168 1 0, mask := 0xffffff00,
    iport_min := 0, iport_max := 65535, re := some "65535".toList }

/-! ## Theorems: rule matcher -/

theorem match_permission_eq_zero_or_one (L : RegexLib) (perm : upnpperm)
    (eport address iport : Nat) (desc : Option (List Char)) :
    match_permission L perm eport address iport desc = 0 ∨
    match_permission L perm eport address iport desc = 1 := by
  unfold match_permission
  split_ifs
  · exact Or.inl rfl
  · exact Or.inl rfl
  · exact Or.inl rfl
  · split
    · split_ifs
      · exact Or.inl rfl
      · exact Or.inr rfl
    · exact Or.inr rfl

theorem match_permission_no_desc (L : RegexLib) (perm : upnpperm)
    (eport address iport : Nat) :
    match_permission L perm eport address iport none = 1 ↔
      (perm.eport_min ≤ eport ∧ eport ≤ perm.eport_max) ∧
      (perm.iport_min ≤ iport ∧ iport ≤ perm.iport_max) ∧
      (address &&& perm.mask) = (perm.address &&& perm.mask) := by
  unfold match_permission
  split_ifs with h1 h2 h3
  · constructor
    · intro h; exact absurd h (by decide)
    · rintro ⟨⟨a, b⟩, -, -⟩; omega
  · constructor
    · intro h; exact absurd h (by decide)
    · rintro ⟨-, ⟨a, b⟩, -⟩; omega
  · constructor
    · intro h; exact absurd h (by decide)
    · rintro ⟨-, -, a⟩; exact absurd a h3
  · constructor
    · intro _
      refine ⟨⟨?_, ?_⟩, ⟨?_, ?_⟩, ?_⟩
      · omega
      · omega
      · omega
      · omega
      · exact not_not.mp h3
    · intro _; rfl

/-- C3: `match_permission` returns 1 exactly when the external port lies in
`[eport_min, eport_max]`, the internal port lies in `[iport_min, iport_max]`, the address
agrees with the rule address under the mask, and it is not the case that a description
was supplied, the rule carries a pattern and `regexec` reports `REG_NOMATCH`; with no
description the pattern clause plays no part. -/
theorem match_permission_iff (L : RegexLib) (perm : upnpperm)
    (eport address iport : Nat) (desc : Option (List Char)) :
    (match_permission L perm eport address iport desc = 1 ↔
      (perm.eport_min ≤ eport ∧ eport ≤ perm.eport_max) ∧
      (perm.iport_min ≤ iport ∧ iport ≤ perm.iport_max) ∧
      (address &&& perm.mask) = (perm.address &&& perm.mask) ∧
      ¬ (∃ d re, desc = some d ∧ perm.re = some re ∧ L.regexec re d = REG_NOMATCH)) ∧
    (match_permission L perm eport address iport none = 1 ↔
      (perm.eport_min ≤ eport ∧ eport ≤ perm.eport_max) ∧
      (perm.iport_min ≤ iport ∧ iport ≤ perm.iport_max) ∧
      (address &&& perm.mask) = (perm.address &&& perm.mask)) := by
  refine ⟨?_, match_permission_no_desc L perm eport address iport⟩
  unfold match_permission
  split_ifs with h1 h2 h3
  · constructor
    · intro h; exact absurd h (by decide)
    · rintro ⟨⟨a, b⟩, -, -, -⟩; omega
  · constructor
    · intro h; exact absurd h (by decide)
    · rintro ⟨-, ⟨a, b⟩, -, -⟩; omega
  · constructor
    · intro h; exact absurd h (by decide)
    · rintro ⟨-, -, a, -⟩; exact absurd a h3
  · have hr : (perm.eport_min ≤ eport ∧ eport ≤ perm.eport_max) ∧
        (perm.iport_min ≤ iport ∧ iport ≤ perm.iport_max) ∧
        (address &&& perm.mask) = (perm.address &&& perm.mask) :=
      ⟨⟨by omega, by omega⟩, ⟨by omega, by omega⟩, not_not.mp h3⟩
    split
    · rename_i d re hre
      split_ifs with h4
      · constructor
        · intro h; exact absurd h (by decide)
        · rintro ⟨-, -, -, hn⟩
          exact absurd ⟨d, re, rfl, hre, h4⟩ hn
      · constructor
        · intro _
          refine ⟨hr.1, hr.2.1, hr.2.2, ?_⟩
          rintro ⟨d1, re1, hd1, hre1, hx⟩
          rw [hre] at hre1
          cases hd1
          cases hre1
          exact h4 hx
        · intro _; rfl
    · rename_i hno
      constructor
      · intro _
        refine ⟨hr.1, hr.2.1, hr.2.2, ?_⟩
        rintro ⟨d1, re1, hd1, hre1, -⟩
        exact hno d1 re1 hd1 hre1
      · intro _; rfl

theorem check_no_match (L : RegexLib) (permary : List upnpperm)
    (eport address iport : Nat) (desc : Option (List Char))
    (h : ∀ perm ∈ permary, match_permission L perm eport address iport desc = 0) :
    check_upnp_rule_against_permissions L permary eport address iport desc = 1 := by
  induction permary with
  | nil => rfl
  | cons perm rest ih =>
    unfold check_upnp_rule_against_permissions
    have h0 := h perm (List.mem_cons_self _ _)
    rw [if_neg (by rw [h0]; decide)]
    exact ih (fun q hq => h q (List.mem_cons_of_mem _ hq))

theorem check_first_match (L : RegexLib) (before after : List upnpperm) (perm : upnpperm)
    (eport address iport : Nat) (desc : Option (List Char))
    (hbefore : ∀ q ∈ before, match_permission L q eport address iport desc = 0)
    (hmatch : match_permission L perm eport address iport desc = 1) :
    check_upnp_rule_against_permissions L (before ++ perm :: after)
        eport address iport desc =
      if perm.type = UPNPPERM_ALLOW then 1 else 0 := by
  induction before with
  | nil =>
    simp only [List.nil_append]
    unfold check_upnp_rule_against_permissions
    rw [if_pos (by rw [hmatch]; decide)]
  | cons q rest ih =>
    simp only [List.cons_append]
    unfold check_upnp_rule_against_permissions
    have h0 := hbefore q (List.mem_cons_self _ _)
    rw [if_neg (by rw [h0]; decide)]
    exact ih (fun r hr => hbefore r (List.mem_cons_of_mem _ hr))

/-- C4: `check_upnp_rule_against_permissions` returns 1 (allow) on the empty rule array,
and on every rule array in which no rule matches the request. -/
theorem check_default_allow (L : RegexLib) (permary : List upnpperm)
    (eport address iport : Nat) (desc : Option (List Char))
    (hnone : ∀ perm ∈ permary, match_permission L perm eport address iport desc = 0) :
    check_upnp_rule_against_permissions L [] eport address iport desc = 1 ∧
    check_upnp_rule_against_permissions L permary eport address iport desc = 1 :=
  ⟨rfl, check_no_match L permary eport address iport desc hnone⟩

theorem check_default_allow_witness :
    (∀ perm ∈ [rule_allow_10_100, rule_deny_0_31],
      match_permission permissive_regex perm 443 (ipv4 192 168 1 10) 443
        (some "web".toList) = 0) ∧
    check_upnp_rule_against_permissions permissive_regex []
      443 (ipv4 192 168 1 10) 443 (some "web".toList) = 1 ∧
    check_upnp_rule_against_permissions permissive_regex
      [rule_allow_10_100, rule_deny_0_31]
      443 (ipv4 192 168 1 10) 443 (some "web".toList) = 1 :=
  ⟨by decide,
    check_default_allow permissive_regex [rule_allow_10_100, rule_deny_0_31]
      443 (ipv4 192 168 1 10) 443 (some "web".toList) (by decide)⟩

/-- C2: if the rule at index `i` matches the request and no rule at a smaller index
does, `check_upnp_rule_against_permissions` returns 1 when rule `i` is an allow rule and
0 when it is a deny rule, whatever rules come after index `i`. -/
theorem check_first_match_wins (L : RegexLib) (permary : List upnpperm)
    (eport address iport : Nat) (desc : Option (List Char))
    (i : Nat) (perm : upnpperm) (hi : permary[i]? = some perm)
    (hmatch : match_permission L perm eport address iport desc = 1)
    (hfirst : ∀ j q, j < i → permary[j]? = some q →
      match_permission L q eport address iport desc = 0) :
    check_upnp_rule_against_permissions L permary eport address iport desc =
      (if perm.type = UPNPPERM_ALLOW then 1 else 0) ∧
    ∀ later : List upnpperm,
      check_upnp_rule_against_permissions L (permary.take (i + 1) ++ later)
          eport address iport desc =
        (if perm.type = UPNPPERM_ALLOW then 1 else 0) := by
  have hlt : i < permary.length := by
    rcases Nat.lt_or_ge i permary.length with h | h
    · exact h
    · rw [List.getElem?_eq_none h] at hi; cases hi
  have hget : permary[i] = perm := by
    rw [List.getElem?_eq_getElem hlt] at hi
    exact Option.some.inj hi
  have hbefore : ∀ q ∈ permary.take i,
      match_permission L q eport address iport desc = 0 := by
    intro q hq
    obtain ⟨j, hj, hjq⟩ := List.getElem_of_mem hq
    have hji : j < i := by
      have := hj
      rw [List.length_take] at this
      omega
    refine hfirst j q hji ?_
    rw [List.getElem_take] at hjq
    rw [List.getElem?_eq_getElem (by omega), hjq]
  have htake : permary.take (i + 1) = permary.take i ++ [perm] := by
    rw [List.take_succ, List.getElem?_eq_getElem hlt, hget]
    rfl
  constructor
  · have hsplit : permary = permary.take i ++ perm :: permary.drop (i + 1) := by
      rw [← hget]
      rw [List.getElem_cons_drop permary i hlt, List.take_append_drop]
    rw [hsplit]
    exact check_first_match L _ _ perm eport address iport desc hbefore hmatch
  · intro later
    rw [htake, List.append_assoc]
    exact check_first_match L _ _ perm eport address iport desc hbefore hmatch

theorem check_first_match_wins_witness :
    [rule_allow_lan, rule_deny_all][1]? = some rule_deny_all ∧
    match_permission permissive_regex rule_deny_all 80 (ipv4 192 168 0 10) 80 none = 1 ∧
    (∀ j q, j < 1 → [rule_allow_lan, rule_deny_all][j]? = some q →
      match_permission permissive_regex q 80 (ipv4 192 168 0 10) 80 none = 0) ∧
    (check_upnp_rule_against_permissions permissive_regex [rule_allow_lan, rule_deny_all]
        80 (ipv4 192 168 0 10) 80 none =
      (if rule_deny_all.type = UPNPPERM_ALLOW then 1 else 0) ∧
    ∀ later : List upnpperm,
      check_upnp_rule_against_permissions permissive_regex
          ([rule_allow_lan, rule_deny_all].take (1 + 1) ++ later)
          80 (ipv4 192 168 0 10) 80 none =
        (if rule_deny_all.type = UPNPPERM_ALLOW then 1 else 0)) :=
  have hfirst : ∀ j q, j < 1 → [rule_allow_lan, rule_deny_all][j]? = some q →
      match_permission permissive_regex q 80 (ipv4 192 168 0 10) 80 none = 0 := by
    intro j q hj hq
    have h0 : j = 0 := by omega
    subst h0
    cases hq
    decide
  ⟨rfl, by decide, hfirst,
    check_first_match_wins permissive_regex [rule_allow_lan, rule_deny_all]
      80 (ipv4 192 168 0 10) 80 none 1 rule_deny_all rfl (by decide) hfirst⟩

/-! ## Theorems: bitmap of permitted external ports -/

theorem port_bit_set (allowed : List Nat) (k v p : Nat) (hk : k < allowed.length) :
    port_bit (allowed.set k v) p =
      if p / 32 = k then v.testBit (p % 32) else port_bit allowed p := by
  unfold port_bit
  rw [List.getD_eq_getElem?_getD, List.getD_eq_getElem?_getD, List.getElem?_set]
  by_cases h : p / 32 = k
  · subst h
    simp [hk]
  · rw [if_neg (Ne.symm h), if_neg h]

theorem words_ok_set (allowed : List Nat) (k v : Nat) (h : words_ok allowed)
    (hv : v < 2 ^ 32) : words_ok (allowed.set k v) := by
  refine ⟨by rw [List.length_set]; exact h.1, ?_⟩
  intro i w hw
  rw [List.getElem?_set] at hw
  by_cases h1 : k = i
  · rw [if_pos h1] at hw
    by_cases h2 : k < allowed.length
    · rw [if_pos h2] at hw
      cases hw
      exact hv
    · rw [if_neg h2] at hw
      cases hw
  · rw [if_neg h1] at hw
    exact h.2 i w hw

theorem range_written_trans (type : upnpperm_type) (lo mid hi : Nat)
    (a b c : List Nat) (h1 : lo ≤ mid) (h2 : mid ≤ hi)
    (hab : range_written type lo mid a b) (hbc : range_written type mid hi b c) :
    range_written type lo hi a c := by
  refine ⟨hbc.1, ?_⟩
  intro p
  rw [hbc.2 p, hab.2 p]
  by_cases hA : mid ≤ p ∧ p < hi
  · rw [if_pos hA, if_pos ⟨by omega, hA.2⟩]
  · rw [if_neg hA]
    by_cases hB : lo ≤ p ∧ p < mid
    · rw [if_pos hB, if_pos ⟨hB.1, by omega⟩]
    · rw [if_neg hB, if_neg (by omega)]

theorem range_written_refl (type : upnpperm_type) (lo hi : Nat) (a : List Nat)
    (h : hi ≤ lo) (ha : words_ok a) : range_written type lo hi a a := by
  refine ⟨ha, ?_⟩
  intro p
  rw [if_neg (by omega)]

theorem one_bit_spec (type : upnpperm_type) (allowed : List Nat) (j : Nat)
    (ha : words_ok allowed) (hj : j < 65536) :
    ∃ allowed1, one_bit type allowed j = some allowed1 ∧
      range_written type j (j + 1) allowed allowed1 := by
  have hk : j / 32 < allowed.length := by
    rw [ha.1]; unfold allowed_words; omega
  have hget : allowed[j / 32]? = some allowed[j / 32] := List.getElem?_eq_getElem hk
  have hw : allowed[j / 32] < 2 ^ 32 := ha.2 _ _ hget
  have hm : j % 32 < 32 := Nat.mod_lt _ (by decide)
  have hpow : (2 : Nat) ^ (j % 32) < 2 ^ 32 := Nat.pow_lt_pow_right (by decide) hm
  unfold one_bit
  rw [hget]
  have hold : ∀ p, p / 32 = j / 32 →
      port_bit allowed p = (allowed[j / 32]).testBit (p % 32) := by
    intro p hp
    unfold port_bit
    rw [List.getD_eq_getElem?_getD, hp, hget]
    rfl
  have hsame : ∀ p, (p / 32 = j / 32 ∧ j % 32 = p % 32) ↔ (j ≤ p ∧ p < j + 1) := by
    intro p; omega
  cases type with
  | UPNPPERM_ALLOW =>
    refine ⟨_, rfl, words_ok_set _ _ _ ha ?_, ?_⟩
    · rw [Nat.one_shiftLeft]
      exact Nat.or_lt_two_pow hw hpow
    · intro p
      rw [port_bit_set _ _ _ _ hk, Nat.one_shiftLeft, Nat.testBit_or, Nat.testBit_two_pow]
      by_cases h1 : p / 32 = j / 32
      · rw [if_pos h1, ← hold p h1]
        by_cases h2 : j % 32 = p % 32
        · rw [if_pos ((hsame p).1 ⟨h1, h2⟩)]
          simp [h2]
        · rw [if_neg (fun h => h2 ((hsame p).2 h).2)]
          simp [h2]
      · rw [if_neg h1, if_neg (fun h => h1 ((hsame p).2 h).1)]
  | UPNPPERM_DENY =>
    refine ⟨_, rfl, words_ok_set _ _ _ ha ?_, ?_⟩
    · exact Nat.lt_of_le_of_lt Nat.and_le_left hw
    · intro p
      have hp32 : p % 32 < 32 := Nat.mod_lt _ (by decide)
      have hff : (0xffffffff : Nat) = 2 ^ 32 - 1 := by norm_num
      rw [port_bit_set _ _ _ _ hk, Nat.one_shiftLeft, Nat.testBit_and, Nat.testBit_xor,
        Nat.testBit_two_pow, hff, Nat.testBit_two_pow_sub_one]
      by_cases h1 : p / 32 = j / 32
      · rw [if_pos h1, ← hold p h1]
        by_cases h2 : j % 32 = p % 32
        · rw [if_pos ((hsame p).1 ⟨h1, h2⟩)]
          simp [h2, hp32]
        · rw [if_neg (fun h => h2 ((hsame p).2 h).2)]
          simp [h2, hp32]
      · rw [if_neg h1, if_neg (fun h => h1 ((hsame p).2 h).1)]

theorem store_word_spec (type : upnpperm_type) (allowed : List Nat) (j : Nat)
    (ha : words_ok allowed) (hj : j < 65536) (hal : j % 32 = 0) :
    ∃ allowed1,
      store_word allowed (j / 32) (if type = UPNPPERM_ALLOW then 0xffffffff else 0)
        = some allowed1 ∧
      range_written type j (j + 32) allowed allowed1 := by
  have hk : j / 32 < allowed.length := by
    rw [ha.1]; unfold allowed_words; omega
  unfold store_word
  rw [if_pos hk]
  have hsame : ∀ p, p / 32 = j / 32 ↔ (j ≤ p ∧ p < j + 32) := by
    intro p; omega
  have hff : (0xffffffff : Nat) = 2 ^ 32 - 1 := by norm_num
  refine ⟨_, rfl, words_ok_set _ _ _ ha ?_, ?_⟩
  · split_ifs
    · norm_num
    · norm_num
  · intro p
    have hp32 : p % 32 < 32 := Nat.mod_lt _ (by decide)
    rw [port_bit_set _ _ _ _ hk]
    by_cases h1 : p / 32 = j / 32
    · rw [if_pos h1, if_pos ((hsame p).1 h1)]
      cases type with
      | UPNPPERM_ALLOW =>
        rw [if_pos rfl, hff, Nat.testBit_two_pow_sub_one]
        simp [hp32]
      | UPNPPERM_DENY =>
        rw [if_neg (by decide), Nat.zero_testBit]
        simp
    · rw [if_neg h1, if_neg (fun h => h1 ((hsame p).2 h))]

theorem bit_loop_spec (type : upnpperm_type) (eport_max : Nat) (hmax : eport_max < 65536) :
    ∀ (fuel : Nat) (allowed : List Nat) (j : Nat), words_ok allowed → j ≤ eport_max →
      32 - j % 32 ≤ fuel →
      ∃ allowed1 j1, bit_loop type eport_max fuel allowed j = some (allowed1, j1) ∧
        j < j1 ∧ j1 ≤ eport_max + 1 ∧ range_written type j j1 allowed allowed1 := by
  intro fuel
  induction fuel with
  | zero =>
    intro allowed j _ _ hf
    have : j % 32 < 32 := Nat.mod_lt _ (by decide)
    omega
  | succ fuel ih =>
    intro allowed j ha hj hf
    obtain ⟨a1, h1, hw1⟩ := one_bit_spec type allowed j ha (by omega)
    unfold bit_loop
    rw [h1]
    by_cases hc : (j + 1) % 32 ≠ 0 ∧ j + 1 ≤ eport_max
    · simp only [if_pos hc]
      obtain ⟨a2, j2, h2, hlt, hle, hw2⟩ := ih a1 (j + 1) hw1.1 hc.2 (by omega)
      exact ⟨a2, j2, h2, by omega, hle,
        range_written_trans type j (j + 1) j2 allowed a1 a2 (by omega) (by omega) hw1 hw2⟩
    · simp only [if_neg hc]
      exact ⟨a1, j + 1, rfl, by omega, by omega, hw1⟩

theorem port_loop_spec (type : upnpperm_type) (eport_max : Nat) (hmax : eport_max < 65536) :
    ∀ (fuel : Nat) (allowed : List Nat) (j : Nat), words_ok allowed →
      eport_max + 1 - j ≤ fuel →
      ∃ allowed1, port_loop type eport_max fuel allowed j = some allowed1 ∧
        range_written type j (eport_max + 1) allowed allowed1 := by
  intro fuel
  induction fuel with
  | zero =>
    intro allowed j ha hf
    unfold port_loop
    rw [if_neg (by omega)]
    exact ⟨allowed, rfl, range_written_refl type _ _ allowed (by omega) ha⟩
  | succ fuel ih =>
    intro allowed j ha hf
    unfold port_loop
    by_cases hj : j ≤ eport_max
    · rw [if_pos hj]
      by_cases hb : j % 32 = 0 ∧ eport_max ≥ j + 31
      · rw [if_pos hb]
        obtain ⟨a1, h1, hw1⟩ := store_word_spec type allowed j ha (by omega) hb.1
        rw [h1]
        obtain ⟨a2, h2, hw2⟩ := ih a1 (j + 32) hw1.1 (by omega)
        exact ⟨a2, h2, range_written_trans type j (j + 32) _ allowed a1 a2
          (by omega) (by omega) hw1 hw2⟩
      · rw [if_neg hb]
        obtain ⟨a1, j1, h1, hlt, hle, hw1⟩ :=
          bit_loop_spec type eport_max hmax 32 allowed j ha hj (by omega)
        rw [h1]
        obtain ⟨a2, h2, hw2⟩ := ih a1 j1 hw1.1 (by omega)
        exact ⟨a2, h2, range_written_trans type j j1 _ allowed a1 a2
          (by omega) hle hw1 hw2⟩
    · rw [if_neg hj]
      exact ⟨allowed, rfl, range_written_refl type _ _ allowed (by omega) ha⟩

theorem naive_ports_spec (type : upnpperm_type) :
    ∀ (n : Nat) (allowed : List Nat) (j : Nat), words_ok allowed → j + n ≤ 65536 →
      ∃ allowed1, naive_ports type n allowed j = some allowed1 ∧
        range_written type j (j + n) allowed allowed1 := by
  intro n
  induction n with
  | zero =>
    intro allowed j ha _
    exact ⟨allowed, rfl, range_written_refl type _ _ allowed (by omega) ha⟩
  | succ n ih =>
    intro allowed j ha hn
    obtain ⟨a1, h1, hw1⟩ := one_bit_spec type allowed j ha (by omega)
    unfold naive_ports
    rw [h1]
    obtain ⟨a2, h2, hw2⟩ := ih a1 (j + 1) hw1.1 (by omega)
    refine ⟨a2, h2, ?_⟩
    have := range_written_trans type j (j + 1) (j + 1 + n) allowed a1 a2
      (by omega) (by omega) hw1 hw2
    rw [show j + (n + 1) = j + 1 + n by omega]
    exact this

/-- A rule applies to the internal endpoint: neither `continue` test fires. -/
theorem applies_iff (addr iport : Nat) (perm : upnpperm) :
    (¬ ((addr &&& perm.mask) ≠ (perm.address &&& perm.mask)) ∧
      ¬ (iport < perm.iport_min ∨ perm.iport_max < iport)) ↔
    ((perm.iport_min ≤ iport ∧ iport ≤ perm.iport_max) ∧
      (addr &&& perm.mask) = (perm.address &&& perm.mask)) := by
  constructor
  · rintro ⟨h1, h2⟩
    exact ⟨⟨by omega, by omega⟩, not_not.mp h1⟩
  · rintro ⟨⟨h1, h2⟩, h3⟩
    exact ⟨not_not.mpr h3, by omega⟩

theorem apply_perm_spec (addr iport : Nat) (perm : upnpperm) (allowed : List Nat)
    (ha : words_ok allowed) (hp : u_short_fields perm) :
    ∃ allowed1, apply_perm addr iport perm allowed = some allowed1 ∧
      words_ok allowed1 ∧
      ∀ p, port_bit allowed1 p =
        if ((perm.iport_min ≤ iport ∧ iport ≤ perm.iport_max) ∧
            (addr &&& perm.mask) = (perm.address &&& perm.mask)) ∧
            (perm.eport_min ≤ p ∧ p ≤ perm.eport_max)
        then decide (perm.type = UPNPPERM_ALLOW) else port_bit allowed p := by
  unfold apply_perm
  by_cases h1 : (addr &&& perm.mask) ≠ (perm.address &&& perm.mask)
  · rw [if_pos h1]
    refine ⟨allowed, rfl, ha, fun p => ?_⟩
    rw [if_neg (fun h => h1 h.1.2)]
  · rw [if_neg h1]
    by_cases h2 : iport < perm.iport_min ∨ perm.iport_max < iport
    · rw [if_pos h2]
      refine ⟨allowed, rfl, ha, fun p => ?_⟩
      rw [if_neg (fun h => by have := h.1.1; omega)]
    · rw [if_neg h2]
      obtain ⟨a1, e1, hw⟩ := port_loop_spec perm.type perm.eport_max hp.2.1
        (perm.eport_max + 1) allowed perm.eport_min ha (by omega)
      refine ⟨a1, e1, hw.1, fun p => ?_⟩
      rw [hw.2 p]
      have happ := (applies_iff addr iport perm).1 ⟨h1, h2⟩
      by_cases hr : perm.eport_min ≤ p ∧ p < perm.eport_max + 1
      · rw [if_pos hr, if_pos ⟨happ, hr.1, by omega⟩]
      · rw [if_neg hr, if_neg (fun h => hr ⟨h.2.1, by omega⟩)]

theorem naive_apply_perm_spec (addr iport : Nat) (perm : upnpperm) (allowed : List Nat)
    (ha : words_ok allowed) (hp : u_short_fields perm) :
    ∃ allowed1, naive_apply_perm addr iport perm allowed = some allowed1 ∧
      words_ok allowed1 ∧
      ∀ p, port_bit allowed1 p =
        if ((perm.iport_min ≤ iport ∧ iport ≤ perm.iport_max) ∧
            (addr &&& perm.mask) = (perm.address &&& perm.mask)) ∧
            (perm.eport_min ≤ p ∧ p ≤ perm.eport_max)
        then decide (perm.type = UPNPPERM_ALLOW) else port_bit allowed p := by
  unfold naive_apply_perm
  by_cases h1 : (addr &&& perm.mask) ≠ (perm.address &&& perm.mask)
  · rw [if_pos h1]
    refine ⟨allowed, rfl, ha, fun p => ?_⟩
    rw [if_neg (fun h => h1 h.1.2)]
  · rw [if_neg h1]
    by_cases h2 : iport < perm.iport_min ∨ perm.iport_max < iport
    · rw [if_pos h2]
      refine ⟨allowed, rfl, ha, fun p => ?_⟩
      rw [if_neg (fun h => by have := h.1.1; omega)]
    · rw [if_neg h2]
      have hmax := hp.2.1
      have hmin := hp.1
      obtain ⟨a1, e1, hw⟩ := naive_ports_spec perm.type
        (perm.eport_max + 1 - perm.eport_min) allowed perm.eport_min ha (by omega)
      refine ⟨a1, e1, hw.1, fun p => ?_⟩
      rw [hw.2 p]
      have happ := (applies_iff addr iport perm).1 ⟨h1, h2⟩
      by_cases hr : perm.eport_min ≤ p ∧
          p < perm.eport_min + (perm.eport_max + 1 - perm.eport_min)
      · rw [if_pos hr, if_pos ⟨happ, hr.1, by omega⟩]
      · rw [if_neg hr, if_neg (fun h => hr ⟨h.2.1, by omega⟩)]

theorem words_ok_ext (a b : List Nat) (ha : words_ok a) (hb : words_ok b)
    (h : ∀ p, p < 65536 → port_bit a p = port_bit b p) : a = b := by
  apply List.ext_getElem (by rw [ha.1, hb.1])
  intro k hka hkb
  have hk : k < 2048 := by
    have := ha.1; unfold allowed_words at this; omega
  have ea : a[k]? = some a[k] := List.getElem?_eq_getElem hka
  have eb : b[k]? = some b[k] := List.getElem?_eq_getElem hkb
  apply Nat.eq_of_testBit_eq
  intro i
  by_cases hi : i < 32
  · have := h (32 * k + i) (by omega)
    unfold port_bit at this
    rw [List.getD_eq_getElem?_getD, List.getD_eq_getElem?_getD] at this
    have e1 : (32 * k + i) / 32 = k := by omega
    have e2 : (32 * k + i) % 32 = i := by omega
    rw [e1, e2, ea, eb] at this
    exact this
  · have la : a[k] < 2 ^ i :=
      Nat.lt_of_lt_of_le (ha.2 k _ ea) (Nat.pow_le_pow_right (by decide) (by omega))
    have lb : b[k] < 2 ^ i :=
      Nat.lt_of_lt_of_le (hb.2 k _ eb) (Nat.pow_le_pow_right (by decide) (by omega))
    rw [Nat.testBit_lt_two_pow la, Nat.testBit_lt_two_pow lb]

theorem words_ok_init : words_ok (List.replicate allowed_words 0xffffffff) := by
  refine ⟨List.length_replicate _ _, ?_⟩
  intro k w hw
  rw [List.getElem?_replicate] at hw
  split_ifs at hw
  cases hw
  norm_num

theorem port_bit_init (p : Nat) (hp : p < 65536) :
    port_bit (List.replicate allowed_words 0xffffffff) p = true := by
  unfold port_bit
  rw [List.getD_eq_getElem?_getD, List.getElem?_replicate,
    if_pos (by unfold allowed_words; omega)]
  have hff : (0xffffffff : Nat) = 2 ^ 32 - 1 := by norm_num
  have hp32 : p % 32 < 32 := Nat.mod_lt _ (by decide)
  simp only [Option.getD_some]
  rw [hff, Nat.testBit_two_pow_sub_one]
  simp [hp32]

theorem perm_loop_append (addr iport : Nat) (l1 l2 : List upnpperm) (allowed : List Nat) :
    perm_loop addr iport (l1 ++ l2) allowed =
      (perm_loop addr iport l1 allowed).bind (perm_loop addr iport l2) := by
  induction l1 generalizing allowed with
  | nil => rfl
  | cons perm rest ih =>
    have e : ∀ l a, perm_loop addr iport (perm :: l) a =
        (apply_perm addr iport perm a).bind (perm_loop addr iport l) := by
      intro l a
      rw [perm_loop]
      cases apply_perm addr iport perm a with
      | none => rfl
      | some a1 => rfl
    rw [List.cons_append, e, e]
    cases apply_perm addr iport perm allowed with
    | none => rfl
    | some a1 => exact ih a1

theorem naive_perm_loop_append (addr iport : Nat) (l1 l2 : List upnpperm)
    (allowed : List Nat) :
    naive_perm_loop addr iport (l1 ++ l2) allowed =
      (naive_perm_loop addr iport l1 allowed).bind (naive_perm_loop addr iport l2) := by
  induction l1 generalizing allowed with
  | nil => rfl
  | cons perm rest ih =>
    have e : ∀ l a, naive_perm_loop addr iport (perm :: l) a =
        (naive_apply_perm addr iport perm a).bind (naive_perm_loop addr iport l) := by
      intro l a
      rw [naive_perm_loop]
      cases naive_apply_perm addr iport perm a with
      | none => rfl
      | some a1 => rfl
    rw [List.cons_append, e, e]
    cases naive_apply_perm addr iport perm allowed with
    | none => rfl
    | some a1 => exact ih a1

theorem get_permitted_ext_ports_cons (perm : upnpperm) (permary : List upnpperm)
    (addr iport : Nat) :
    get_permitted_ext_ports (perm :: permary) addr iport =
      (get_permitted_ext_ports permary addr iport).bind (apply_perm addr iport perm) := by
  unfold get_permitted_ext_ports
  rw [List.reverse_cons, perm_loop_append]
  congr 1
  funext a
  unfold perm_loop
  cases apply_perm addr iport perm a with
  | none => rfl
  | some a1 => rfl

theorem naive_permitted_ext_ports_cons (perm : upnpperm) (permary : List upnpperm)
    (addr iport : Nat) :
    naive_permitted_ext_ports (perm :: permary) addr iport =
      (naive_permitted_ext_ports permary addr iport).bind
        (naive_apply_perm addr iport perm) := by
  unfold naive_permitted_ext_ports
  rw [List.reverse_cons, naive_perm_loop_append]
  congr 1
  funext a
  unfold naive_perm_loop
  cases naive_apply_perm addr iport perm a with
  | none => rfl
  | some a1 => rfl

theorem bitmap_invariant (L : RegexLib) (permary : List upnpperm) (addr iport : Nat)
    (hwf : ∀ perm ∈ permary, u_short_fields perm) :
    ∃ allowed, get_permitted_ext_ports permary addr iport = some allowed ∧
      words_ok allowed ∧
      ∀ p, p < 65536 →
        (port_bit allowed p = true ↔
          check_upnp_rule_against_permissions L permary p addr iport none = 1) := by
  induction permary with
  | nil =>
    refine ⟨_, rfl, words_ok_init, ?_⟩
    intro p hp
    rw [port_bit_init p hp]
    exact ⟨fun _ => rfl, fun _ => rfl⟩
  | cons perm rest ih =>
    obtain ⟨a, ha, hok, hbits⟩ := ih (fun q hq => hwf q (List.mem_cons_of_mem _ hq))
    obtain ⟨a1, h1, hok1, hb1⟩ :=
      apply_perm_spec addr iport perm a hok (hwf perm (List.mem_cons_self _ _))
    refine ⟨a1, ?_, hok1, ?_⟩
    · rw [get_permitted_ext_ports_cons, ha]
      exact h1
    · intro p hp
      rw [hb1 p]
      unfold check_upnp_rule_against_permissions
      have hm := match_permission_no_desc L perm p addr iport
      by_cases hc : ((perm.iport_min ≤ iport ∧ iport ≤ perm.iport_max) ∧
            (addr &&& perm.mask) = (perm.address &&& perm.mask)) ∧
            (perm.eport_min ≤ p ∧ p ≤ perm.eport_max)
      · have h1 : match_permission L perm p addr iport none = 1 :=
          hm.2 ⟨hc.2, hc.1.1, hc.1.2⟩
        rw [if_pos hc, if_pos (by rw [h1]; decide)]
        by_cases ht : perm.type = UPNPPERM_ALLOW
        · simp [ht]
        · simp [ht]
      · have h0 : match_permission L perm p addr iport none = 0 := by
          rcases match_permission_eq_zero_or_one L perm p addr iport none with h | h
          · exact h
          · exact absurd ((fun x => ⟨⟨x.2.1, x.2.2⟩, x.1⟩) (hm.1 h)) hc
        rw [if_neg hc, if_neg (by rw [h0]; decide)]
        exact hbits p hp

/-- C1: for every rule array (with `u_short` port fields), every internal address and
port and every external port `p` in 0..65535, `get_permitted_ext_ports` produces a bitmap
whose bit `p` (bit `p % 32` of word `p / 32`) is set exactly when
`check_upnp_rule_against_permissions` returns 1 for `p` with no description. -/
theorem bitmap_bit_iff_check (L : RegexLib) (permary : List upnpperm)
    (addr iport p : Nat) (hwf : ∀ perm ∈ permary, u_short_fields perm)
    (hp : p ≤ 65535) :
    ∃ allowed, get_permitted_ext_ports permary addr iport = some allowed ∧
      (port_bit allowed p = true ↔
        check_upnp_rule_against_permissions L permary p addr iport none = 1) := by
  obtain ⟨a, ha, -, hbits⟩ := bitmap_invariant L permary addr iport hwf
  exact ⟨a, ha, hbits p (by omega)⟩

theorem bitmap_bit_iff_check_witness :
    (∀ perm ∈ [rule_allow_10_100, rule_deny_0_31, rule_deny_1_65535],
      u_short_fields perm) ∧ 20 ≤ 65535 ∧
    ∃ allowed,
      get_permitted_ext_ports [rule_allow_10_100, rule_deny_0_31, rule_deny_1_65535]
        3232235786 8080 = some allowed ∧
      (port_bit allowed 20 = true ↔
        check_upnp_rule_against_permissions permissive_regex
          [rule_allow_10_100, rule_deny_0_31, rule_deny_1_65535] 20 3232235786 8080 none
          = 1) :=
  ⟨by decide, by decide,
    bitmap_bit_iff_check permissive_regex
      [rule_allow_10_100, rule_deny_0_31, rule_deny_1_65535] 3232235786 8080 20
      (by decide) (by decide)⟩

theorem block_path_invariant (permary : List upnpperm) (addr iport : Nat)
    (hwf : ∀ perm ∈ permary, u_short_fields perm) :
    ∃ allowed, get_permitted_ext_ports permary addr iport = some allowed ∧
      naive_permitted_ext_ports permary addr iport = some allowed ∧
      words_ok allowed := by
  induction permary with
  | nil => exact ⟨_, rfl, rfl, words_ok_init⟩
  | cons perm rest ih =>
    obtain ⟨a, ha, hn, hok⟩ := ih (fun q hq => hwf q (List.mem_cons_of_mem _ hq))
    have hu := hwf perm (List.mem_cons_self _ _)
    obtain ⟨a1, h1, hok1, hb1⟩ := apply_perm_spec addr iport perm a hok hu
    obtain ⟨a2, h2, hok2, hb2⟩ := naive_apply_perm_spec addr iport perm a hok hu
    have e : a2 = a1 := by
      apply words_ok_ext a2 a1 hok2 hok1
      intro p _
      rw [hb1 p, hb2 p]
    refine ⟨a1, ?_, ?_, hok1⟩
    · rw [get_permitted_ext_ports_cons, ha]
      exact h1
    · rw [naive_permitted_ext_ports_cons, hn, ← e]
      exact h2

/-- C7: for every rule array (with `u_short` port fields), address and internal port,
`get_permitted_ext_ports`, with its 32-ports-at-once path, produces the same bitmap as the
variant that writes every port of `[eport_min, eport_max]` one bit at a time; and applying
a rule changes no bit of a port outside `[eport_min, eport_max]`. -/
theorem block_path_eq_naive (permary : List upnpperm) (addr iport : Nat)
    (hwf : ∀ perm ∈ permary, u_short_fields perm) :
    (∃ allowed, get_permitted_ext_ports permary addr iport = some allowed ∧
      naive_permitted_ext_ports permary addr iport = some allowed) ∧
    (∀ (perm : upnpperm) (allowed : List Nat), u_short_fields perm → words_ok allowed →
      ∃ allowed1, apply_perm addr iport perm allowed = some allowed1 ∧
        ∀ p, (p < perm.eport_min ∨ perm.eport_max < p) →
          port_bit allowed1 p = port_bit allowed p) := by
  constructor
  · obtain ⟨a, h1, h2, -⟩ := block_path_invariant permary addr iport hwf
    exact ⟨a, h1, h2⟩
  · intro perm allowed hu hok
    obtain ⟨a1, h1, -, hb1⟩ := apply_perm_spec addr iport perm allowed hok hu
    refine ⟨a1, h1, fun p hp => ?_⟩
    rw [hb1 p, if_neg (fun h => by have := h.2; omega)]

theorem block_path_eq_naive_witness :
    (∀ perm ∈ [rule_allow_10_100, rule_deny_0_31, rule_deny_1_65535],
      u_short_fields perm) ∧
    ((∃ allowed,
      get_permitted_ext_ports [rule_allow_10_100, rule_deny_0_31, rule_deny_1_65535]
        3232235786 8080 = some allowed ∧
      naive_permitted_ext_ports [rule_allow_10_100, rule_deny_0_31, rule_deny_1_65535]
        3232235786 8080 = some allowed) ∧
    (∀ (perm : upnpperm) (allowed : List Nat), u_short_fields perm → words_ok allowed →
      ∃ allowed1, apply_perm 3232235786 8080 perm allowed = some allowed1 ∧
        ∀ p, (p < perm.eport_min ∨ perm.eport_max < p) →
          port_bit allowed1 p = port_bit allowed p)) :=
  ⟨by decide,
    block_path_eq_naive [rule_allow_10_100, rule_deny_0_31, rule_deny_1_65535]
      3232235786 8080 (by decide)⟩

/-! ## Theorems: rule parser -/

theorem read_permission_line_eval (L : RegexLib) (line : List Char)
    (type : upnpperm_type) (eport_min eport_max address mask iport_min iport_max : Nat)
    (p : List Char) (c : Char) (cs : List Char)
    (h4 : four_tokens line =
      .ok (type, eport_min, eport_max, address, mask, iport_min, iport_max, p))
    (hp : p.dropWhile isspace = c :: cs) :
    read_permission_line L line =
      if L.regcomp (c :: cs) ≠ 0 then .error
      else .ok { type := type, eport_min := eport_min, eport_max := eport_max,
                 address := address, mask := mask,
                 iport_min := iport_min, iport_max := iport_max, re := some (c :: cs) } := by
  unfold read_permission_line
  rw [h4]
  simp only [Outcome.bind, regex_token, hp]
  split_ifs <;> rfl

theorem read_line_allow_lan (L : RegexLib) :
    read_permission_line L line_allow_lan =
      if L.regcomp "65535".toList ≠ 0 then .error else .ok rule_allow_lan :=
  read_permission_line_eval L line_allow_lan UPNPPERM_ALLOW 1024 65535
    (ipv4 192 168 0 0) 0xffff0000 1024 65535 "65535".toList _ _ rfl rfl

theorem read_line_deny_all (L : RegexLib) :
    read_permission_line L line_deny_all =
      if L.regcomp "65535".toList ≠ 0 then .error else .ok rule_deny_all :=
  read_permission_line_eval L line_deny_all UPNPPERM_DENY 0 65535
    0 0 0 65535 "65535".toList _ _ rfl rfl

/-- C6: when the lines "allow 1024-65535 192.168.0.0/16 1024-65535" and
"deny 0-65535 0.0.0.0/0 0-65535" are parsed in this order (the parses succeed as soon as
`regcomp` accepts the text it is given), the request for external port 80, internal
address 10.0.0.5, internal port 80 and no description is denied (0). -/
theorem scenario_other_host_denied (L : RegexLib) (hre : L.regcomp "65535".toList = 0) :
    ∃ r1 r2, read_permission_line L line_allow_lan = .ok r1 ∧
      read_permission_line L line_deny_all = .ok r2 ∧
      check_upnp_rule_against_permissions L [r1, r2] 80 (ipv4 10 0 0 5) 80 none = 0 := by
  refine ⟨rule_allow_lan, rule_deny_all, ?_, ?_, rfl⟩
  · rw [read_line_allow_lan, if_neg (by rw [hre]; decide)]
  · rw [read_line_deny_all, if_neg (by rw [hre]; decide)]

theorem scenario_other_host_denied_witness :
    permissive_regex.regcomp "65535".toList = 0 ∧
    ∃ r1 r2, read_permission_line permissive_regex line_allow_lan = .ok r1 ∧
      read_permission_line permissive_regex line_deny_all = .ok r2 ∧
      check_upnp_rule_against_permissions permissive_regex [r1, r2]
        80 (ipv4 10 0 0 5) 80 none = 0 :=
  ⟨rfl, scenario_other_host_denied permissive_regex rfl⟩

/-- C5, as the code behaves: with the same two lines parsed in the same order, the
request for external port 80, internal address 192.168.0.10, internal port 80 and no
description is denied (0): port 80 is outside the ranges 1024-65535 of the first rule,
so the second rule is the first that matches. -/
theorem scenario_lan_host_denied (L : RegexLib) (hre : L.regcomp "65535".toList = 0) :
    ∃ r1 r2, read_permission_line L line_allow_lan = .ok r1 ∧
      read_permission_line L line_deny_all = .ok r2 ∧
      check_upnp_rule_against_permissions L [r1, r2] 80 (ipv4 192 168 0 10) 80 none
        = 0 := by
  refine ⟨rule_allow_lan, rule_deny_all, ?_, ?_, rfl⟩
  · rw [read_line_allow_lan, if_neg (by rw [hre]; decide)]
  · rw [read_line_deny_all, if_neg (by rw [hre]; decide)]

theorem scenario_lan_host_denied_witness :
    permissive_regex.regcomp "65535".toList = 0 ∧
    ∃ r1 r2, read_permission_line permissive_regex line_allow_lan = .ok r1 ∧
      read_permission_line permissive_regex line_deny_all = .ok r2 ∧
      check_upnp_rule_against_permissions permissive_regex [r1, r2]
        80 (ipv4 192 168 0 10) 80 none = 0 :=
  ⟨rfl, scenario_lan_host_denied permissive_regex rfl⟩

/-- C5, as stated, fails: it is not the case that, whenever both lines parse, the request
for external port 80, internal address 192.168.0.10, internal port 80 and no description
is allowed (1). -/
theorem scenario_lan_host_not_allowed :
    ¬ (∀ (L : RegexLib) (r1 r2 : upnpperm),
        read_permission_line L line_allow_lan = .ok r1 →
        read_permission_line L line_deny_all = .ok r2 →
        check_upnp_rule_against_permissions L [r1, r2] 80 (ipv4 192 168 0 10) 80 none
          = 1) := by
  intro h
  have h1 := h permissive_regex rule_allow_lan rule_deny_all (by decide) (by decide)
  exact absurd h1 (by decide)

/-- C8, at the line "deny 0-65535 0.0.0.0/0 0-65535", which has no pattern: the rule
built carries the pattern source "65535" (the text of the upper internal port), and
`write_permlist` prints it as the pattern of the rule. -/
theorem roundtrip_adds_pattern (L : RegexLib) :
    read_permission_line L line_deny_all =
      (if L.regcomp "65535".toList ≠ 0 then .error else .ok rule_deny_all) ∧
    rule_deny_all.re = some "65535".toList ∧
    write_permlist [rule_deny_all] =
      "Permissions :".toList ++ [Char.ofNat 10] ++
      "00 deny 0-65535 00000000/00000000 0-65535 65535".toList ++ [Char.ofNat 10] :=
  ⟨read_line_deny_all L, rfl, by decide⟩

/-- C9, at the line "allow 8080 192.168.1.20 554 ^camera": the text compiled by `regcomp`
and stored as the pattern source is "554", the internal port, not the text "^camera"
that follows the fourth token. -/
theorem pattern_is_port_text (L : RegexLib) :
    read_permission_line L line_camera =
      if L.regcomp "554".toList ≠ 0 then .error
      else .ok { type := UPNPPERM_ALLOW, eport_min := 8080, eport_max := 8080,
                 address := ipv4 192 168 1 20, mask := 0xffffffff,
                 iport_min := 554, iport_max := 554, re := some "554".toList } :=
  read_permission_line_eval L line_camera UPNPPERM_ALLOW 8080 8080
    (ipv4 192 168 1 20) 0xffffffff 554 554 "554".toList _ _ rfl rfl

/-- C10, at the line "allow 80 192.168.1.10 80", where nothing follows the fourth token:
the rule built carries the pattern source "80", and a request with a description is
excluded from that rule whenever `regexec` reports that "80" does not match it. -/
theorem blank_tail_has_pattern (L : RegexLib) :
    read_permission_line L line_host_80 =
      (if L.regcomp "80".toList ≠ 0 then .error else .ok rule_host_80) ∧
    rule_host_80.re = some "80".toList ∧
    ∀ desc, match_permission L rule_host_80 80 (ipv4 192 168 1 10) 80 (some desc) =
      if L.regexec "80".toList desc = REG_NOMATCH then 0 else 1 := by
  have h := read_permission_line_eval L line_host_80 UPNPPERM_ALLOW 80 80
    (ipv4 192 168 1 10) 0xffffffff 80 80 "80".toList _ _ rfl rfl
  refine ⟨h, rfl, ?_⟩
  intro desc
  rfl

theorem read_permission_line_undefined (L : RegexLib) (line : List Char)
    (h4 : four_tokens line = .undefined) :
    read_permission_line L line = .undefined := by
  unfold read_permission_line
  rw [h4]
  rfl

/-- C11, at the line "allow 1-2": the external port range ends on the terminating NUL, so
after `p = q + 1` (line 88) the test `isspace(*p)` of line 89 reads the character after
the NUL; the run is undefined, and not because of `atoi`, which is called on "1" and
"2". -/
theorem read_past_terminator (L : RegexLib) :
    read_permission_line L line_range_at_end = .undefined ∧
    eport_token "1-2".toList = .undefined ∧
    atoi "1".toList = some 1 ∧ atoi "2".toList = some 2 ∧
    ("2".toList).dropWhile isdigit = [] :=
  ⟨read_permission_line_undefined L line_range_at_end rfl, rfl, rfl, rfl, rfl⟩

/-- C12, at the line "allow 1-2x 1.2.3.4 5": the external port token "1-2x" is not
well-formed, yet the line is accepted (as soon as `regcomp` accepts) with the external
ports 1-2, the letter after the range being overwritten by `*q = 0`. -/
theorem malformed_range_accepted (L : RegexLib) :
    read_permission_line L line_range_letter =
      if L.regcomp "5".toList ≠ 0 then .error
      else .ok { type := UPNPPERM_ALLOW, eport_min := 1, eport_max := 2,
                 address := ipv4 1 2 3 4, mask := 0xffffffff,
                 iport_min := 5, iport_max := 5, re := some "5".toList } :=
  read_permission_line_eval L line_range_letter UPNPPERM_ALLOW 1 2
    (ipv4 1 2 3 4) 0xffffffff 5 5 "5".toList _ _ rfl rfl

/-- C14, at the line "allow 4294967296 1.2.3.4 5": the external port exceeds 65535 and
does not fit an `int`, `atoi` has no defined result on it, and the run is undefined
instead of returning -1. -/
theorem huge_port_undefined (L : RegexLib) :
    read_permission_line L line_huge_port = .undefined ∧
    atoi "4294967296".toList = none ∧
    return_value (read_permission_line L line_huge_port) ≠ some (-1) :=
  ⟨read_permission_line_undefined L line_huge_port rfl, rfl, by
    rw [read_permission_line_undefined L line_huge_port rfl]
    decide⟩

/-- C16, at the line "allow 5 1.2.3.4/ 5": the mask after the slash is empty, yet the
line is accepted (as soon as `regcomp` accepts) with the mask 0, as for a bit count of
0. -/
theorem empty_mask_accepted (L : RegexLib) :
    read_permission_line L line_empty_mask =
      if L.regcomp "5".toList ≠ 0 then .error
      else .ok { type := UPNPPERM_ALLOW, eport_min := 5, eport_max := 5,
                 address := ipv4 1 2 3 4, mask := 0,
                 iport_min := 5, iport_max := 5, re := some "5".toList } :=
  read_permission_line_eval L line_empty_mask UPNPPERM_ALLOW 5 5
    (ipv4 1 2 3 4) 0 5 5 "5".toList _ _ rfl rfl

/-- C18, at the line "allow5 1.2.3.4 5": the first token delimited by white space is
"allow5", which is not exactly "allow", yet the line is accepted (as soon as `regcomp`
accepts) as an allow rule with the external port 5. -/
theorem glued_keyword_accepted (L : RegexLib) :
    read_permission_line L line_glued_keyword =
      if L.regcomp "5".toList ≠ 0 then .error
      else .ok { type := UPNPPERM_ALLOW, eport_min := 5, eport_max := 5,
                 address := ipv4 1 2 3 4, mask := 0xffffffff,
                 iport_min := 5, iport_max := 5, re := some "5".toList } :=
  read_permission_line_eval L line_glued_keyword UPNPPERM_ALLOW 5 5
    (ipv4 1 2 3 4) 0xffffffff 5 5 "5".toList _ _ rfl rfl

/-- C19: for every rule array whose port bounds are 16-bit values, and every address and
internal port, `get_permitted_ext_ports` returns: it ends within its iteration bounds and
no access falls outside the 2048 words of the bitmap, which still has 2048 words. -/
theorem get_permitted_ext_ports_total (permary : List upnpperm) (addr iport : Nat)
    (hwf : ∀ perm ∈ permary, u_short_fields perm) :
    ∃ allowed, get_permitted_ext_ports permary addr iport = some allowed ∧
      allowed.length = 2048 := by
  obtain ⟨a, ha, hok, -⟩ := bitmap_invariant permissive_regex permary addr iport hwf
  exact ⟨a, ha, hok.1⟩

theorem get_permitted_ext_ports_total_witness :
    (∀ perm ∈ [rule_allow_10_100, rule_deny_0_31, rule_deny_1_65535],
      u_short_fields perm) ∧
    ∃ allowed,
      get_permitted_ext_ports [rule_allow_10_100, rule_deny_0_31, rule_deny_1_65535]
        (ipv4 192 168 1 10) 8080 = some allowed ∧
      allowed.length = 2048 :=
  ⟨by decide,
    get_permitted_ext_ports_total [rule_allow_10_100, rule_deny_0_31, rule_deny_1_65535]
      (ipv4 192 168 1 10) 8080 (by decide)⟩

/-! ## Theorems: stages of the parser -/

theorem four_tokens_eq (line : List Char) :
    four_tokens line =
      (three_tokens line).bind fun (type, eport_min, eport_max, address, mask, p) =>
      (iport_token p).bind fun (iport_min, iport_max, p4) =>
      .ok (type, eport_min, eport_max, address, mask, iport_min, iport_max, p4) := by
  unfold four_tokens three_tokens three_tokens_at two_tokens_at
  cases action_token (List.dropWhile isspace (c_string line)) with
  | error => rfl
  | undefined => rfl
  | ok a =>
    obtain ⟨type, p1⟩ := a
    simp only [Outcome.bind]
    cases eport_token (List.dropWhile isspace p1) with
    | error => rfl
    | undefined => rfl
    | ok b =>
      obtain ⟨eport_min, eport_max, p2⟩ := b
      simp only []
      cases subnet_token (List.dropWhile isspace p2) with
      | error => rfl
      | undefined => rfl
      | ok c => rfl

theorem read_permission_line_ok (L : RegexLib) (line : List Char) (perm : upnpperm)
    (h : read_permission_line L line = .ok perm) :
    ∃ p3 p4,
      three_tokens line = .ok (perm.type, perm.eport_min, perm.eport_max,
        perm.address, perm.mask, p3) ∧
      iport_token p3 = .ok (perm.iport_min, perm.iport_max, p4) ∧
      regex_token L p4 = .ok perm.re := by
  unfold read_permission_line at h
  rw [four_tokens_eq] at h
  cases h3 : three_tokens line with
  | error => rw [h3] at h; cases h
  | undefined => rw [h3] at h; cases h
  | ok a =>
    obtain ⟨type, eport_min, eport_max, address, mask, p3⟩ := a
    rw [h3] at h
    simp only [Outcome.bind] at h
    cases h4 : iport_token p3 with
    | error => rw [h4] at h; cases h
    | undefined => rw [h4] at h; cases h
    | ok b =>
      obtain ⟨iport_min, iport_max, p4⟩ := b
      rw [h4] at h
      simp only [] at h
      cases h5 : regex_token L p4 with
      | error => rw [h5] at h; cases h
      | undefined => rw [h5] at h; cases h
      | ok re =>
        rw [h5] at h
        simp only [] at h
        cases h
        exact ⟨p3, p4, rfl, h4, h5⟩

theorem two_tokens_at_ok (x : List Char) (type : upnpperm_type) (eport_min eport_max : Nat)
    (p : List Char) (h : two_tokens_at x = .ok (type, eport_min, eport_max, p)) :
    ∃ p1 p2, action_token (x.dropWhile isspace) = .ok (type, p1) ∧
      eport_token (p1.dropWhile isspace) = .ok (eport_min, eport_max, p2) ∧
      p = p2.dropWhile isspace := by
  unfold two_tokens_at at h
  cases h1 : action_token (List.dropWhile isspace x) with
  | error => rw [h1] at h; cases h
  | undefined => rw [h1] at h; cases h
  | ok a =>
    obtain ⟨type1, p1⟩ := a
    rw [h1] at h
    simp only [Outcome.bind] at h
    cases h2 : eport_token (List.dropWhile isspace p1) with
    | error => rw [h2] at h; cases h
    | undefined => rw [h2] at h; cases h
    | ok b =>
      obtain ⟨a1, b1, p2⟩ := b
      rw [h2] at h
      simp only [] at h
      cases h
      exact ⟨p1, p2, rfl, h2, rfl⟩

theorem three_tokens_at_ok (x : List Char) (type : upnpperm_type)
    (eport_min eport_max address mask : Nat) (p : List Char)
    (h : three_tokens_at x = .ok (type, eport_min, eport_max, address, mask, p)) :
    ∃ p2 p3, two_tokens_at x = .ok (type, eport_min, eport_max, p2) ∧
      subnet_token p2 = .ok (address, mask, p3) ∧
      p = p3.dropWhile isspace := by
  unfold three_tokens_at at h
  cases h1 : two_tokens_at x with
  | error => rw [h1] at h; cases h
  | undefined => rw [h1] at h; cases h
  | ok a =>
    obtain ⟨type1, a1, b1, p2⟩ := a
    rw [h1] at h
    simp only [Outcome.bind] at h
    cases h2 : subnet_token p2 with
    | error => rw [h2] at h; cases h
    | undefined => rw [h2] at h; cases h
    | ok b =>
      obtain ⟨ad, m, p3⟩ := b
      rw [h2] at h
      simp only [] at h
      cases h
      exact ⟨p2, p3, rfl, h2, rfl⟩

theorem eport_token_ordered (p : List Char) (a b : Nat) (r : List Char)
    (h : eport_token p = .ok (a, b, r)) : a ≤ b := by
  unfold eport_token at h
  split at h
  · cases h
  · split at h
    · cases h
    · split at h
      · split at h
        · cases h
        · split at h
          · cases h
          · split at h
            · cases h
            · split at h
              · cases h
              · split at h
                · cases h
                · split at h
                  · cases h
                  · cases h
                    omega
      · split at h
        · split at h
          · cases h
          · split at h
            · cases h
            · cases h
              exact Nat.le_refl _
        · cases h

/-! ## Theorems: scanning loops on an extended text -/

theorem dropWhile_append_of_ne_nil (P : Char → Bool) (l y : List Char)
    (h : l.dropWhile P ≠ []) : (l ++ y).dropWhile P = l.dropWhile P ++ y := by
  induction l with
  | nil => exact absurd rfl h
  | cons a l ih =>
    by_cases ha : P a = true
    · rw [List.cons_append, List.dropWhile_cons_of_pos ha, List.dropWhile_cons_of_pos ha]
      rw [List.dropWhile_cons_of_pos ha] at h
      exact ih h
    · rw [List.cons_append, List.dropWhile_cons_of_neg ha, List.dropWhile_cons_of_neg ha]
      rfl

theorem takeWhile_append_of_ne_nil (P : Char → Bool) (l y : List Char)
    (h : l.dropWhile P ≠ []) : (l ++ y).takeWhile P = l.takeWhile P := by
  induction l with
  | nil => exact absurd rfl h
  | cons a l ih =>
    by_cases ha : P a = true
    · rw [List.cons_append, List.takeWhile_cons_of_pos ha, List.takeWhile_cons_of_pos ha]
      rw [List.dropWhile_cons_of_pos ha] at h
      rw [ih h]
    · rw [List.cons_append, List.takeWhile_cons_of_neg ha, List.takeWhile_cons_of_neg ha]

theorem dropWhile_append_of_all (P : Char → Bool) (l y : List Char)
    (h : l.all P = true) : (l ++ y).dropWhile P = y.dropWhile P := by
  induction l with
  | nil => rfl
  | cons a l ih =>
    rw [List.all_cons, Bool.and_eq_true] at h
    rw [List.cons_append, List.dropWhile_cons_of_pos h.1]
    exact ih h.2

theorem takeWhile_append_of_all (P : Char → Bool) (l y : List Char)
    (h : l.all P = true) : (l ++ y).takeWhile P = l ++ y.takeWhile P := by
  induction l with
  | nil => rfl
  | cons a l ih =>
    rw [List.all_cons, Bool.and_eq_true] at h
    rw [List.cons_append, List.takeWhile_cons_of_pos h.1, ih h.2]
    rfl

theorem all_of_dropWhile_eq_nil (P : Char → Bool) (l : List Char)
    (h : l.dropWhile P = []) : l.all P = true := by
  induction l with
  | nil => rfl
  | cons a l ih =>
    by_cases ha : P a = true
    · rw [List.dropWhile_cons_of_pos ha] at h
      rw [List.all_cons, ha, ih h]
      rfl
    · rw [List.dropWhile_cons_of_neg ha] at h
      cases h

theorem takeWhile_eq_self_of_all (P : Char → Bool) (l : List Char)
    (h : l.all P = true) : l.takeWhile P = l := by
  have := takeWhile_append_of_all P l [] h
  simpa using this

theorem dropWhile_eq_nil_of_all (P : Char → Bool) (l : List Char)
    (h : l.all P = true) : l.dropWhile P = [] := by
  have := dropWhile_append_of_all P l [] h
  simpa using this

theorem isspace_not_isdigit (c : Char) (h : isspace c = true) : isdigit c = false := by
  unfold isspace at h
  unfold isdigit
  simp only [Bool.or_eq_true, Bool.and_eq_true, decide_eq_true_eq] at h
  cases hd : (decide (48 ≤ c.toNat) && decide (c.toNat ≤ 57)) with
  | false => rfl
  | true =>
    simp only [Bool.and_eq_true, decide_eq_true_eq] at hd
    omega

theorem isspace_ne_dash (c : Char) (h : isspace c = true) : c ≠ '-' := by
  intro hc
  subst hc
  exact absurd h (by decide)

theorem isspace_ne_dot (c : Char) (h : isspace c = true) : c ≠ '.' := by
  intro hc
  subst hc
  exact absurd h (by decide)

theorem isspace_ne_slash (c : Char) (h : isspace c = true) : c ≠ '/' := by
  intro hc
  subst hc
  exact absurd h (by decide)

/-- A text that is empty or begins with white space stops every scan for digits. -/
theorem takeWhile_isdigit_append_tail (l t : List Char)
    (ht : t = [] ∨ begins_with_space t = true) :
    (l ++ t).takeWhile isdigit = l.takeWhile isdigit := by
  induction l with
  | nil =>
    rcases ht with ht | ht
    · subst ht; rfl
    · cases t with
      | nil => rfl
      | cons w t1 =>
        have hw : isdigit w = false := isspace_not_isdigit w ht
        rw [List.nil_append, List.takeWhile_cons_of_neg (by rw [hw]; decide)]
        rfl
  | cons a l ih =>
    by_cases ha : isdigit a = true
    · rw [List.cons_append, List.takeWhile_cons_of_pos ha, List.takeWhile_cons_of_pos ha, ih]
    · rw [List.cons_append, List.takeWhile_cons_of_neg ha, List.takeWhile_cons_of_neg ha]

theorem isdigit_at_append (p y : List Char) (h : p ≠ []) :
    isdigit_at (p ++ y) = isdigit_at p := by
  cases p with
  | nil => exact absurd rfl h
  | cons a l => rfl

theorem ne_nil_of_isdigit_at (p : List Char) (h : isdigit_at p ≠ false) : p ≠ [] := by
  intro hp
  subst hp
  exact h rfl

/-- The internal port token is read the same way whatever follows it, provided that what
follows is nothing or begins with white space. -/
theorem iport_token_append (tok t : List Char) (htok : tok ≠ [])
    (ht : t = [] ∨ begins_with_space t = true) :
    iport_token (tok ++ t) = iport_token tok := by
  rcases ht with ht | ht
  · subst ht
    rw [List.append_nil]
  · have e0 := isdigit_at_append tok t htok
    have e1 := takeWhile_isdigit_append_tail tok t (Or.inr ht)
    unfold iport_token
    rw [e0, e1]
    cases hd : tok.dropWhile isdigit with
    | nil =>
      have hall := all_of_dropWhile_eq_nil isdigit tok hd
      rw [dropWhile_append_of_all isdigit tok t hall]
      cases t with
      | nil => cases ht
      | cons w t1 =>
        have hw : isspace w = true := ht
        have hwd := isspace_not_isdigit w hw
        rw [List.dropWhile_cons_of_neg (by rw [hwd]; decide)]
        simp only [if_neg (isspace_ne_dash w hw), hw, if_true]
    | cons c r1 =>
      rw [dropWhile_append_of_ne_nil isdigit tok t (by rw [hd]; exact List.cons_ne_nil _ _),
        hd]
      simp only [List.cons_append]
      rw [takeWhile_isdigit_append_tail r1 t (Or.inr ht)]

/-! ## Theorems: the first tokens on an extended text -/

theorem action_token_append (p y : List Char) (type : upnpperm_type) (p1 : List Char)
    (h : action_token p = .ok (type, p1)) :
    action_token (p ++ y) = .ok (type, p1 ++ y) := by
  unfold action_token at h ⊢
  by_cases h5 : p.take 5 = ['a', 'l', 'l', 'o', 'w']
  · rw [if_pos h5] at h
    cases h
    have hlen : 5 ≤ p.length := by
      have := congrArg List.length h5
      rw [List.length_take] at this
      simp only [List.length_cons, List.length_nil] at this
      omega
    rw [List.take_append_of_le_length hlen, if_pos h5, List.drop_append_of_le_length hlen]
  · rw [if_neg h5] at h
    by_cases h4 : p.take 4 = ['d', 'e', 'n', 'y']
    · rw [if_pos h4] at h
      cases h
      have hlen : 4 ≤ p.length := by
        have := congrArg List.length h4
        rw [List.length_take] at this
        simp only [List.length_cons, List.length_nil] at this
        omega
      have h5y : ¬ ((p ++ y).take 5 = ['a', 'l', 'l', 'o', 'w']) := by
        intro hc
        have e := congrArg (List.take 4) hc
        rw [List.take_take, show min 4 5 = 4 from rfl,
          List.take_append_of_le_length hlen, h4] at e
        exact absurd e (by decide)
      rw [if_neg h5y, List.take_append_of_le_length hlen, if_pos h4,
        List.drop_append_of_le_length hlen]
    · rw [if_neg h4] at h
      cases h

theorem action_token_ne_nil (p : List Char) (type : upnpperm_type) (p1 : List Char)
    (h : action_token p = .ok (type, p1)) : p ≠ [] := by
  intro hp
  subst hp
  have e : action_token ([] : List Char) = (.error : Outcome (upnpperm_type × List Char)) :=
    rfl
  rw [e] at h
  cases h

theorem eport_token_ne_nil (p : List Char) (v : Nat × Nat × List Char)
    (h : eport_token p = .ok v) : p ≠ [] := by
  intro hp
  subst hp
  have e : eport_token ([] : List Char) = (.error : Outcome (Nat × Nat × List Char)) := rfl
  rw [e] at h
  cases h

theorem eport_token_append (p y : List Char) (a b : Nat) (r : List Char)
    (h : eport_token p = .ok (a, b, r)) :
    eport_token (p ++ y) = .ok (a, b, r ++ y) := by
  have hne := eport_token_ne_nil p _ h
  unfold eport_token at h ⊢
  rw [isdigit_at_append p y hne]
  by_cases hd0 : isdigit_at p = false
  · rw [if_pos hd0] at h
    cases h
  · rw [if_neg hd0] at h ⊢
    cases hd : p.dropWhile isdigit with
    | nil =>
      rw [hd] at h
      cases h
    | cons c q1 =>
      have hnn : p.dropWhile isdigit ≠ [] := by rw [hd]; exact List.cons_ne_nil _ _
      rw [hd] at h
      rw [dropWhile_append_of_ne_nil isdigit p y hnn,
        takeWhile_append_of_ne_nil isdigit p y hnn, hd]
      simp only [List.cons_append] at h ⊢
      by_cases hc : c = '-'
      · rw [if_pos hc] at h ⊢
        cases ha : atoi (p.takeWhile isdigit) with
        | none => rw [ha] at h; cases h
        | some i =>
          rw [ha] at h
          simp only [] at h ⊢
          by_cases hi : i > 65535
          · rw [if_pos hi] at h; cases h
          · rw [if_neg hi] at h ⊢
            cases hd2 : q1.dropWhile isdigit with
            | nil =>
              rw [hd2] at h
              cases ha2 : atoi (q1.takeWhile isdigit) with
              | none => rw [ha2] at h; cases h
              | some i2 =>
                rw [ha2] at h
                simp only [] at h
                split_ifs at h
            | cons c2 p1 =>
              have hnn2 : q1.dropWhile isdigit ≠ [] := by
                rw [hd2]; exact List.cons_ne_nil _ _
              rw [hd2] at h
              rw [dropWhile_append_of_ne_nil isdigit q1 y hnn2,
                takeWhile_append_of_ne_nil isdigit q1 y hnn2, hd2]
              cases ha2 : atoi (q1.takeWhile isdigit) with
              | none => rw [ha2] at h; cases h
              | some i2 =>
                rw [ha2] at h
                simp only [List.cons_append] at h ⊢
                by_cases hi2 : i2 > 65535
                · rw [if_pos hi2] at h; cases h
                · rw [if_neg hi2] at h ⊢
                  by_cases ho : to_u_short i > to_u_short i2
                  · rw [if_pos ho] at h; cases h
                  · rw [if_neg ho] at h ⊢
                    cases h
                    rfl
      · rw [if_neg hc] at h ⊢
        by_cases hs : isspace c = true
        · rw [if_pos hs] at h ⊢
          cases ha : atoi (p.takeWhile isdigit) with
          | none => rw [ha] at h; cases h
          | some i =>
            rw [ha] at h
            simp only [] at h ⊢
            by_cases hi : i > 65535
            · rw [if_pos hi] at h; cases h
            · rw [if_neg hi] at h ⊢
              cases h
              rfl
        · rw [if_neg hs] at h
          cases h

theorem subnet_token_ne_nil (p : List Char) (v : Nat × Nat × List Char)
    (h : subnet_token p = .ok v) : p ≠ [] := by
  intro hp
  subst hp
  have e : subnet_token ([] : List Char) = (.error : Outcome (Nat × Nat × List Char)) := rfl
  rw [e] at h
  cases h

theorem subnet_token_append (p y : List Char) (a m : Nat) (r : List Char)
    (h : subnet_token p = .ok (a, m, r)) :
    subnet_token (p ++ y) = .ok (a, m, r ++ y) := by
  have hne := subnet_token_ne_nil p _ h
  unfold subnet_token at h ⊢
  rw [isdigit_at_append p y hne]
  by_cases hd0 : isdigit_at p = false
  · rw [if_pos hd0] at h
    cases h
  · rw [if_neg hd0] at h ⊢
    cases hd : p.dropWhile is_digit_or_dot with
    | nil =>
      rw [hd] at h
      cases h
    | cons c q1 =>
      have hnn : p.dropWhile is_digit_or_dot ≠ [] := by
        rw [hd]; exact List.cons_ne_nil _ _
      rw [hd] at h
      rw [dropWhile_append_of_ne_nil is_digit_or_dot p y hnn,
        takeWhile_append_of_ne_nil is_digit_or_dot p y hnn, hd]
      simp only [List.cons_append] at h ⊢
      by_cases hc : c = '/'
      · rw [if_pos hc] at h ⊢
        cases ha : inet_aton (p.takeWhile is_digit_or_dot) with
        | none => rw [ha] at h; cases h
        | some address =>
          rw [ha] at h
          simp only [] at h ⊢
          cases hd2 : q1.dropWhile isdigit with
          | nil =>
            rw [hd2] at h
            cases h
          | cons c2 q2 =>
            have hnn2 : q1.dropWhile isdigit ≠ [] := by
              rw [hd2]; exact List.cons_ne_nil _ _
            rw [hd2] at h
            rw [dropWhile_append_of_ne_nil isdigit q1 y hnn2,
              takeWhile_append_of_ne_nil isdigit q1 y hnn2, hd2]
            simp only [List.cons_append] at h ⊢
            by_cases hc2 : c2 = '.'
            · rw [if_pos hc2] at h ⊢
              cases hd3 : (c2 :: q2).dropWhile (fun x => x = '.' || isdigit x) with
              | nil =>
                rw [hd3] at h
                cases h
              | cons c3 q3 =>
                have hnn3 : (c2 :: q2).dropWhile (fun x => x = '.' || isdigit x) ≠ [] := by
                  rw [hd3]; exact List.cons_ne_nil _ _
                have e3 : (c2 :: (q2 ++ y)).dropWhile (fun x => x = '.' || isdigit x)
                    = c3 :: (q3 ++ y) := by
                  have := dropWhile_append_of_ne_nil (fun x => x = '.' || isdigit x)
                    (c2 :: q2) y hnn3
                  rw [hd3] at this
                  exact this
                have e4 : (c2 :: (q2 ++ y)).takeWhile (fun x => x = '.' || isdigit x)
                    = (c2 :: q2).takeWhile (fun x => x = '.' || isdigit x) :=
                  takeWhile_append_of_ne_nil (fun x => x = '.' || isdigit x)
                    (c2 :: q2) y hnn3
                rw [hd3] at h
                rw [e3, e4]
                simp only [] at h ⊢
                by_cases hs3 : isspace c3 = false
                · rw [if_pos hs3] at h; cases h
                · rw [if_neg hs3] at h ⊢
                  cases hm : inet_aton (q1.takeWhile isdigit ++
                      (c2 :: q2).takeWhile (fun x => x = '.' || isdigit x)) with
                  | none => rw [hm] at h; cases h
                  | some mask =>
                    rw [hm] at h
                    simp only [] at h ⊢
                    cases h
                    rfl
            · rw [if_neg hc2] at h ⊢
              by_cases hs2 : isspace c2 = false
              · rw [if_pos hs2] at h; cases h
              · rw [if_neg hs2] at h ⊢
                cases hb : atoi (q1.takeWhile isdigit) with
                | none => rw [hb] at h; cases h
                | some n_bits =>
                  rw [hb] at h
                  simp only [] at h ⊢
                  by_cases hn : n_bits > 32
                  · rw [if_pos hn] at h; cases h
                  · rw [if_neg hn] at h ⊢
                    cases h
                    rfl
      · rw [if_neg hc] at h ⊢
        by_cases hs : isspace c = true
        · rw [if_pos hs] at h ⊢
          cases ha : inet_aton (p.takeWhile is_digit_or_dot) with
          | none => rw [ha] at h; cases h
          | some address =>
            rw [ha] at h
            simp only [] at h ⊢
            cases h
            rfl
        · rw [if_neg hs] at h
          cases h

theorem two_tokens_at_append (x y : List Char) (type : upnpperm_type)
    (eport_min eport_max : Nat) (p : List Char)
    (h : two_tokens_at x = .ok (type, eport_min, eport_max, p)) (hp : p ≠ []) :
    two_tokens_at (x ++ y) = .ok (type, eport_min, eport_max, p ++ y) := by
  obtain ⟨p1, p2, h1, h2, h3⟩ := two_tokens_at_ok x type eport_min eport_max p h
  have n1 : x.dropWhile isspace ≠ [] := action_token_ne_nil _ _ _ h1
  have n2 : p1.dropWhile isspace ≠ [] := eport_token_ne_nil _ _ h2
  have n3 : p2.dropWhile isspace ≠ [] := by rw [← h3]; exact hp
  unfold two_tokens_at
  rw [dropWhile_append_of_ne_nil isspace x y n1, action_token_append _ y _ _ h1]
  simp only [Outcome.bind]
  rw [dropWhile_append_of_ne_nil isspace p1 y n2, eport_token_append _ y _ _ _ h2]
  simp only []
  rw [dropWhile_append_of_ne_nil isspace p2 y n3, ← h3]

theorem three_tokens_at_append (x y : List Char) (type : upnpperm_type)
    (eport_min eport_max address mask : Nat) (p : List Char)
    (h : three_tokens_at x = .ok (type, eport_min, eport_max, address, mask, p))
    (hp : p ≠ []) :
    three_tokens_at (x ++ y) = .ok (type, eport_min, eport_max, address, mask, p ++ y) := by
  obtain ⟨p2, p3, h1, h2, h3⟩ :=
    three_tokens_at_ok x type eport_min eport_max address mask p h
  have n2 : p2 ≠ [] := subnet_token_ne_nil _ _ h2
  have n3 : p3.dropWhile isspace ≠ [] := by rw [← h3]; exact hp
  unfold three_tokens_at
  rw [two_tokens_at_append x y _ _ _ _ h1 n2]
  simp only [Outcome.bind]
  rw [subnet_token_append _ y _ _ _ h2]
  simp only []
  rw [dropWhile_append_of_ne_nil isspace p3 y n3, ← h3]

/-- The content of the C string `s ++ t` is the content of `s` followed by nothing (when
`s` holds a NUL) or by a text that begins with white space as `t` does. -/
theorem c_string_append (s t : List Char) (ht : begins_with_space t = true) :
    ∃ t1, c_string (s ++ t) = c_string s ++ t1 ∧
      (t1 = [] ∨ begins_with_space t1 = true) := by
  induction s with
  | nil =>
    cases t with
    | nil => cases ht
    | cons w t0 =>
      have hw : isspace w = true := ht
      have hz : w.toNat ≠ 0 := by
        intro hz
        unfold isspace at hw
        rw [hz] at hw
        exact absurd hw (by decide)
      refine ⟨w :: c_string t0, ?_, Or.inr hw⟩
      unfold c_string
      rw [List.nil_append, List.takeWhile_cons_of_pos (by simpa using hz)]
      rfl
  | cons a s ih =>
    obtain ⟨t1, e1, e2⟩ := ih
    by_cases ha : a.toNat ≠ 0
    · refine ⟨t1, ?_, e2⟩
      unfold c_string at e1 ⊢
      rw [List.cons_append, List.takeWhile_cons_of_pos (by simpa using ha),
        List.takeWhile_cons_of_pos (by simpa using ha), e1]
      rfl
    · refine ⟨[], ?_, Or.inl rfl⟩
      unfold c_string
      rw [List.cons_append, List.takeWhile_cons_of_neg (by simpa using ha),
        List.takeWhile_cons_of_neg (by simpa using ha)]
      rfl

theorem is_port_token_ne_nil (tok : List Char) (h : is_port_token tok = true) :
    tok ≠ [] := by
  intro hp
  subst hp
  exact absurd h (by decide)

/-- A line that ends with its internal port token is parsed the same way when a text that
begins with white space is added to it. -/
theorem read_permission_line_append (L : RegexLib) (s t : List Char)
    (type : upnpperm_type) (eport_min eport_max address mask : Nat) (tok : List Char)
    (hs : three_tokens s = .ok (type, eport_min, eport_max, address, mask, tok))
    (htok : tok ≠ []) (ht : begins_with_space t = true) :
    read_permission_line L (s ++ t) = read_permission_line L s := by
  obtain ⟨t1, e1, e2⟩ := c_string_append s t ht
  have h3 : three_tokens (s ++ t) =
      .ok (type, eport_min, eport_max, address, mask, tok ++ t1) := by
    unfold three_tokens at hs ⊢
    rw [e1]
    exact three_tokens_at_append _ t1 _ _ _ _ _ _ hs htok
  unfold read_permission_line
  rw [four_tokens_eq, four_tokens_eq, h3, hs]
  simp only [Outcome.bind]
  rw [iport_token_append tok t1 htok e2]

/-- C20: when the line prefix `s` ends with a complete internal port token (its first
three tokens parse and leave at `p` a text `tok` that is a port token) and `t1`, `t2`
both begin with white space, `read_permission_line` gives the same outcome on `s ++ t1`
and on `s ++ t2`: the same return value and, when it is 0, the same rule, pattern source
included. -/
theorem trailing_text_ignored (L : RegexLib) (s t1 t2 : List Char)
    (type : upnpperm_type) (eport_min eport_max address mask : Nat) (tok : List Char)
    (hs : three_tokens s = .ok (type, eport_min, eport_max, address, mask, tok))
    (htok : is_port_token tok = true)
    (h1 : begins_with_space t1 = true) (h2 : begins_with_space t2 = true) :
    read_permission_line L (s ++ t1) = read_permission_line L (s ++ t2) := by
  have hne := is_port_token_ne_nil tok htok
  rw [read_permission_line_append L s t1 _ _ _ _ _ tok hs hne h1,
    read_permission_line_append L s t2 _ _ _ _ _ tok hs hne h2]

theorem trailing_text_ignored_witness :
    three_tokens "allow 80 192.168.1.10 80-90".toList =
      .ok (UPNPPERM_ALLOW, 80, 80, ipv4 192 168 1 10, 0xffffffff, "80-90".toList) ∧
    is_port_token "80-90".toList = true ∧
    begins_with_space " ^camera".toList = true ∧
    begins_with_space " printer".toList = true ∧
    read_permission_line permissive_regex
        ("allow 80 192.168.1.10 80-90".toList ++ " ^camera".toList) =
      read_permission_line permissive_regex
        ("allow 80 192.168.1.10 80-90".toList ++ " printer".toList) :=
  ⟨rfl, rfl, rfl, rfl,
    trailing_text_ignored permissive_regex "allow 80 192.168.1.10 80-90".toList
      " ^camera".toList " printer".toList UPNPPERM_ALLOW 80 80 (ipv4 192 168 1 10)
      0xffffffff "80-90".toList rfl rfl rfl rfl⟩

/-! ## Theorems: subnet token -/

theorem inet_aton_lt (cp : List Char) (a : Nat) (h : inet_aton cp = some a) :
    a < 2 ^ 32 := by
  unfold inet_aton at h
  split at h
  · split_ifs at h with h1
    cases h
    omega
  · split_ifs at h with h1
    cases h
    omega
  · split_ifs at h with h1
    cases h
    omega
  · split_ifs at h with h1
    cases h
    omega
  · cases h

theorem subnet_token_no_mask (p : List Char) (a m : Nat) (r : List Char)
    (h : subnet_token p = .ok (a, m, r))
    (hno : (p.dropWhile is_digit_or_dot).head? ≠ some '/') :
    m = 0xffffffff ∧ inet_aton (p.takeWhile is_digit_or_dot) = some a := by
  unfold subnet_token at h
  by_cases hd0 : isdigit_at p = false
  · rw [if_pos hd0] at h
    cases h
  · rw [if_neg hd0] at h
    cases hd : p.dropWhile is_digit_or_dot with
    | nil =>
      rw [hd] at h
      cases h
    | cons c q1 =>
      rw [hd] at h hno
      have hc : ¬ (c = '/') := by
        intro hc
        apply hno
        rw [hc]
        rfl
      simp only [if_neg hc] at h
      by_cases hs : isspace c = true
      · rw [if_pos hs] at h
        cases ha : inet_aton (p.takeWhile is_digit_or_dot) with
        | none => rw [ha] at h; cases h
        | some address =>
          rw [ha] at h
          simp only [] at h
          cases h
          exact ⟨rfl, rfl⟩
      · rw [if_neg hs] at h
        cases h

theorem and_all_ones_eq_iff (x y : Nat) (hx : x < 2 ^ 32) (hy : y < 2 ^ 32) :
    (x &&& 0xffffffff) = (y &&& 0xffffffff) ↔ x = y := by
  have hff : (0xffffffff : Nat) = 2 ^ 32 - 1 := by norm_num
  rw [hff, Nat.and_pow_two_sub_one_of_lt_two_pow hx,
    Nat.and_pow_two_sub_one_of_lt_two_pow hy]

theorem read_permission_line_subnet (L : RegexLib) (line : List Char) (perm : upnpperm)
    (type : upnpperm_type) (eport_min eport_max : Nat) (p : List Char)
    (h : read_permission_line L line = .ok perm)
    (h2 : two_tokens line = .ok (type, eport_min, eport_max, p)) :
    ∃ r, subnet_token p = .ok (perm.address, perm.mask, r) := by
  obtain ⟨p3, p4, e3, -, -⟩ := read_permission_line_ok L line perm h
  unfold three_tokens at e3
  obtain ⟨q2, q3, f1, f2, -⟩ := three_tokens_at_ok _ _ _ _ _ _ _ e3
  unfold two_tokens at h2
  rw [h2] at f1
  cases f1
  exact ⟨q3, f2⟩

/-- C17: on every accepted line whose subnet token (the text at `p` after the first two
tokens) is an address with no slash after it, the mask of the rule is all ones and the
address of the rule is what `inet_aton` reads from the address text, so that the address
clause of `match_permission` holds for a 32-bit candidate exactly when it equals that
address. -/
theorem host_route_mask (L : RegexLib) (line : List Char) (perm : upnpperm)
    (type : upnpperm_type) (eport_min eport_max : Nat) (p : List Char)
    (h : read_permission_line L line = .ok perm)
    (h2 : two_tokens line = .ok (type, eport_min, eport_max, p))
    (hno : (p.dropWhile is_digit_or_dot).head? ≠ some '/') :
    perm.mask = 0xffffffff ∧
    inet_aton (p.takeWhile is_digit_or_dot) = some perm.address ∧
    ∀ cand, cand < 2 ^ 32 →
      ((cand &&& perm.mask) = (perm.address &&& perm.mask) ↔ cand = perm.address) := by
  obtain ⟨r, hr⟩ := read_permission_line_subnet L line perm type eport_min eport_max p h h2
  obtain ⟨hm, ha⟩ := subnet_token_no_mask p _ _ r hr hno
  refine ⟨hm, ha, ?_⟩
  intro cand hc
  rw [hm]
  exact and_all_ones_eq_iff cand perm.address hc (inet_aton_lt _ _ ha)

theorem host_route_mask_witness :
    read_permission_line permissive_regex line_host_80 = .ok rule_host_80 ∧
    two_tokens line_host_80 = .ok (UPNPPERM_ALLOW, 80, 80, "192.168.1.10 80".toList) ∧
    (("192.168.1.10 80".toList).dropWhile is_digit_or_dot).head? ≠ some '/' ∧
    (rule_host_80.mask = 0xffffffff ∧
    inet_aton (("192.168.1.10 80".toList).takeWhile is_digit_or_dot)
      = some rule_host_80.address ∧
    ∀ cand, cand < 2 ^ 32 →
      ((cand &&& rule_host_80.mask) = (rule_host_80.address &&& rule_host_80.mask) ↔
        cand = rule_host_80.address)) :=
  ⟨by decide, rfl, by decide,
    host_route_mask permissive_regex line_host_80 rule_host_80 UPNPPERM_ALLOW 80 80
      "192.168.1.10 80".toList (by decide) rfl (by decide)⟩

theorem is_digit_or_dot_slash : is_digit_or_dot '/' = false := by decide

theorem subnet_token_scan (a x : List Char) (ha : is_address_text a = true) :
    isdigit_at (a ++ '/' :: x) = true ∧
    (a ++ '/' :: x).dropWhile is_digit_or_dot = '/' :: x ∧
    (a ++ '/' :: x).takeWhile is_digit_or_dot = a := by
  unfold is_address_text at ha
  rw [Bool.and_eq_true] at ha
  have hne : a ≠ [] := ne_nil_of_isdigit_at a (by rw [ha.1]; decide)
  refine ⟨by rw [isdigit_at_append a _ hne]; exact ha.1, ?_, ?_⟩
  · rw [dropWhile_append_of_all is_digit_or_dot a _ ha.2,
      List.dropWhile_cons_of_neg (by rw [is_digit_or_dot_slash]; decide)]
  · rw [takeWhile_append_of_all is_digit_or_dot a _ ha.2,
      List.takeWhile_cons_of_neg (by rw [is_digit_or_dot_slash]; decide),
      List.append_nil]

theorem scan_digits_then_space (ds : List Char) (w : Char) (r : List Char)
    (hds : ds.all isdigit = true) (hw : isspace w = true) :
    (ds ++ w :: r).dropWhile isdigit = w :: r ∧
    (ds ++ w :: r).takeWhile isdigit = ds := by
  have hwd := isspace_not_isdigit w hw
  constructor
  · rw [dropWhile_append_of_all isdigit ds _ hds,
      List.dropWhile_cons_of_neg (by rw [hwd]; decide)]
  · rw [takeWhile_append_of_all isdigit ds _ hds,
      List.takeWhile_cons_of_neg (by rw [hwd]; decide), List.append_nil]

/-- The subnet token `a/ds` with a run of digits `ds` after the slash, followed by white
space. -/
theorem subnet_token_bit_count (a ds : List Char) (w : Char) (r : List Char)
    (ha : is_address_text a = true) (hds : ds.all isdigit = true)
    (hw : isspace w = true) :
    subnet_token (a ++ '/' :: (ds ++ w :: r)) =
      match inet_aton a with
      | none => .error
      | some address =>
        match atoi ds with
        | none => .undefined
        | some n_bits =>
          if n_bits > 32 then .error else .ok (address, mask_of_bits n_bits, r) := by
  obtain ⟨s1, s2, s3⟩ := subnet_token_scan a (ds ++ w :: r) ha
  obtain ⟨d1, d2⟩ := scan_digits_then_space ds w r hds hw
  unfold subnet_token
  rw [s1, s2, s3]
  simp only [if_true, Bool.true_eq_false, if_false]
  rw [d1, d2]
  cases inet_aton a with
  | none => rfl
  | some address =>
    simp only [if_neg (isspace_ne_dot w hw), hw, Bool.true_eq_false, if_false]

/-- The subnet token `a/md` with a mask text `md` made of a run of digits, a dot, and
further digits and dots, followed by white space. -/
theorem subnet_token_dotted_mask (a md : List Char) (w : Char) (r : List Char)
    (ha : is_address_text a = true)
    (h1 : (md.dropWhile isdigit).head? = some '.')
    (h2 : (md.dropWhile isdigit).all (fun x => x = '.' || isdigit x) = true)
    (hw : isspace w = true) :
    subnet_token (a ++ '/' :: (md ++ w :: r)) =
      match inet_aton a with
      | none => .error
      | some address =>
        match inet_aton md with
        | none => .error
        | some mask => .ok (address, mask, r) := by
  obtain ⟨s1, s2, s3⟩ := subnet_token_scan a (md ++ w :: r) ha
  have hwd := isspace_not_isdigit w hw
  have hwdd : (decide (w = '.') || isdigit w) = false := by
    simp only [hwd, Bool.or_false, decide_eq_false_iff_not]
    exact isspace_ne_dot w hw
  cases hd : md.dropWhile isdigit with
  | nil => rw [hd] at h1; cases h1
  | cons c2 q2 =>
    rw [hd] at h1 h2
    have hc2 : c2 = '.' := by
      simpa using h1
    have hnn : md.dropWhile isdigit ≠ [] := by rw [hd]; exact List.cons_ne_nil _ _
    have e1 : (md ++ w :: r).dropWhile isdigit = c2 :: (q2 ++ w :: r) := by
      rw [dropWhile_append_of_ne_nil isdigit md _ hnn, hd]
      rfl
    have e2 : (md ++ w :: r).takeWhile isdigit = md.takeWhile isdigit :=
      takeWhile_append_of_ne_nil isdigit md _ hnn
    have e3 : (c2 :: (q2 ++ w :: r)).dropWhile (fun x => x = '.' || isdigit x) = w :: r := by
      have := dropWhile_append_of_all (fun x => x = '.' || isdigit x) (c2 :: q2)
        (w :: r) h2
      rw [List.dropWhile_cons_of_neg (by rw [hwdd]; decide)] at this
      exact this
    have e4 : (c2 :: (q2 ++ w :: r)).takeWhile (fun x => x = '.' || isdigit x)
        = c2 :: q2 := by
      have := takeWhile_append_of_all (fun x => x = '.' || isdigit x) (c2 :: q2)
        (w :: r) h2
      rw [List.takeWhile_cons_of_neg (by rw [hwdd]; decide), List.append_nil] at this
      exact this
    have e5 : md.takeWhile isdigit ++ c2 :: q2 = md := by
      rw [← hd]
      exact List.takeWhile_append_dropWhile isdigit md
    unfold subnet_token
    rw [s1, s2, s3]
    simp only [if_true, Bool.true_eq_false, if_false]
    rw [e1, e2]
    cases inet_aton a with
    | none => rfl
    | some address =>
      simp only [if_pos hc2]
      rw [e3, e4, e5]
      simp only [hw, Bool.true_eq_false, if_false]

theorem prefix_mask_texts (N : Nat) (hN : N ≤ 32) :
    (decimal N).all isdigit = true ∧
    atoi (decimal N) = some (N : Int) ∧
    mask_of_bits (N : Int) = prefix_mask N ∧
    ((dotted_quad (prefix_mask N)).dropWhile isdigit).head? = some '.' ∧
    ((dotted_quad (prefix_mask N)).dropWhile isdigit).all
      (fun x => x = '.' || isdigit x) = true ∧
    inet_aton (dotted_quad (prefix_mask N)) = some (prefix_mask N) := by
  interval_cases N <;> exact ⟨rfl, rfl, rfl, rfl, rfl, rfl⟩

theorem prefix_mask_eq_shift (N : Nat) (hN : N ≤ 32) :
    prefix_mask N = (2 ^ N - 1) <<< (32 - N) := by
  unfold prefix_mask
  rw [Nat.shiftLeft_eq, Nat.sub_mul, Nat.one_mul, ← Nat.pow_add]
  congr 2
  omega

theorem and_prefix_mask (N : Nat) (hN : N ≤ 32) (x : Nat) (hx : x < 2 ^ 32) :
    x &&& prefix_mask N = (x >>> (32 - N)) <<< (32 - N) := by
  rw [prefix_mask_eq_shift N hN]
  apply Nat.eq_of_testBit_eq
  intro i
  rw [Nat.testBit_and, Nat.testBit_shiftLeft, Nat.testBit_shiftLeft,
    Nat.testBit_two_pow_sub_one, Nat.testBit_shiftRight]
  by_cases hi : i ≥ 32 - N
  · have e : 32 - N + (i - (32 - N)) = i := by omega
    rw [e]
    by_cases h32 : i < 32
    · have : i - (32 - N) < N := by omega
      simp [hi, this]
    · have hx0 : x.testBit i = false :=
        Nat.testBit_lt_two_pow
          (Nat.lt_of_lt_of_le hx (Nat.pow_le_pow_right (by decide) (by omega)))
      simp [hx0]
  · simp [hi]

theorem prefix_mask_and_eq_iff (N : Nat) (hN : N ≤ 32) (x y : Nat)
    (hx : x < 2 ^ 32) (hy : y < 2 ^ 32) :
    (x &&& prefix_mask N) = (y &&& prefix_mask N) ↔
      x / 2 ^ (32 - N) = y / 2 ^ (32 - N) := by
  rw [and_prefix_mask N hN x hx, and_prefix_mask N hN y hy, Nat.shiftLeft_eq,
    Nat.shiftLeft_eq, Nat.shiftRight_eq_div_pow, Nat.shiftRight_eq_div_pow]
  constructor
  · intro h
    exact Nat.eq_of_mul_eq_mul_right (Nat.two_pow_pos (32 - N)) h
  · intro h
    rw [h]

theorem subnet_token_of_bit_count (N : Nat) (hN : N ≤ 32) (a rest r : List Char)
    (address mask : Nat) (ha : is_address_text a = true)
    (hrest : begins_with_space rest = true)
    (h : subnet_token (a ++ '/' :: (decimal N ++ rest)) = .ok (address, mask, r)) :
    inet_aton a = some address ∧ mask = prefix_mask N := by
  obtain ⟨f1, f2, f3, -, -, -⟩ := prefix_mask_texts N hN
  cases rest with
  | nil => cases hrest
  | cons w r1 =>
    have hw : isspace w = true := hrest
    rw [subnet_token_bit_count a (decimal N) w r1 ha f1 hw, f2] at h
    cases hi : inet_aton a with
    | none => rw [hi] at h; cases h
    | some ad =>
      rw [hi] at h
      simp only [] at h
      rw [if_neg (by omega)] at h
      cases h
      exact ⟨rfl, f3⟩

theorem subnet_token_of_dotted_mask (N : Nat) (hN : N ≤ 32) (a rest r : List Char)
    (address mask : Nat) (ha : is_address_text a = true)
    (hrest : begins_with_space rest = true)
    (h : subnet_token (a ++ '/' :: (dotted_quad (prefix_mask N) ++ rest))
      = .ok (address, mask, r)) :
    inet_aton a = some address ∧ mask = prefix_mask N := by
  obtain ⟨-, -, -, f4, f5, f6⟩ := prefix_mask_texts N hN
  cases rest with
  | nil => cases hrest
  | cons w r1 =>
    have hw : isspace w = true := hrest
    rw [subnet_token_dotted_mask a (dotted_quad (prefix_mask N)) w r1 ha f4 f5 hw, f6] at h
    cases hi : inet_aton a with
    | none => rw [hi] at h; cases h
    | some ad =>
      rw [hi] at h
      simp only [] at h
      cases h
      exact ⟨rfl, rfl⟩

theorem read_line_net_24 (L : RegexLib) :
    read_permission_line L line_net_24 =
      if L.regcomp "65535".toList ≠ 0 then .error else .ok rule_net_24 :=
  read_permission_line_eval L line_net_24 UPNPPERM_ALLOW 0 65535
    (ipv4 192 168 1 0) 0xffffff00 0 65535 "65535".toList _ _ rfl rfl

/-- C15: for every `N` from 0 to 32, an accepted line whose subnet token is `A/N` (`N` in
decimal, followed by white space) and an accepted line whose subnet token is `A/M` (`M`
the dotted-quad text of the mask with the `N` most significant bits set) give rules with
the same address and the same mask, that mask; the address clause of `match_permission`
then holds for a 32-bit candidate exactly when its `N` most significant bits are those of
the rule address, which is the address that `inet_aton` reads from `A`. The rule parsed from "allow 0-65535 192.168.1.0/24 0-65535" matches
192.168.1.5 and does not match 192.168.2.5. -/
theorem bit_count_mask (L : RegexLib) (N : Nat) (hN : N ≤ 32)
    (line1 line2 : List Char) (perm1 perm2 : upnpperm)
    (type1 type2 : upnpperm_type) (emin1 emax1 emin2 emax2 : Nat)
    (a rest1 rest2 : List Char)
    (ha : is_address_text a = true)
    (hr1 : begins_with_space rest1 = true) (hr2 : begins_with_space rest2 = true)
    (ht1 : two_tokens line1 =
      .ok (type1, emin1, emax1, a ++ '/' :: (decimal N ++ rest1)))
    (ht2 : two_tokens line2 =
      .ok (type2, emin2, emax2, a ++ '/' :: (dotted_quad (prefix_mask N) ++ rest2)))
    (h1 : read_permission_line L line1 = .ok perm1)
    (h2 : read_permission_line L line2 = .ok perm2) :
    perm1.mask = prefix_mask N ∧ perm2.mask = prefix_mask N ∧
    inet_aton a = some perm1.address ∧ perm1.address = perm2.address ∧
    (∀ cand, cand < 2 ^ 32 →
      ((cand &&& perm1.mask) = (perm1.address &&& perm1.mask) ↔
        cand / 2 ^ (32 - N) = perm1.address / 2 ^ (32 - N))) ∧
    read_permission_line L line_net_24 =
      (if L.regcomp "65535".toList ≠ 0 then .error else .ok rule_net_24) ∧
    match_permission L rule_net_24 80 (ipv4 192 168 1 5) 80 none = 1 ∧
    match_permission L rule_net_24 80 (ipv4 192 168 2 5) 80 none = 0 := by
  obtain ⟨r1, s1⟩ := read_permission_line_subnet L line1 perm1 _ _ _ _ h1 ht1
  obtain ⟨r2, s2⟩ := read_permission_line_subnet L line2 perm2 _ _ _ _ h2 ht2
  obtain ⟨a1, m1⟩ := subnet_token_of_bit_count N hN a rest1 r1 _ _ ha hr1 s1
  obtain ⟨a2, m2⟩ := subnet_token_of_dotted_mask N hN a rest2 r2 _ _ ha hr2 s2
  refine ⟨m1, m2, a1, ?_, ?_, read_line_net_24 L, rfl, rfl⟩
  · rw [a1] at a2
    exact Option.some.inj a2
  · intro cand hc
    rw [m1]
    exact prefix_mask_and_eq_iff N hN cand perm1.address hc (inet_aton_lt _ _ a1)

theorem bit_count_mask_witness :
    24 ≤ 32 ∧ is_address_text "192.168.1.0".toList = true ∧
    begins_with_space " 0-65535".toList = true ∧
    two_tokens line_net_24 = .ok (UPNPPERM_ALLOW, 0, 65535,
      "192.168.1.0".toList ++ '/' :: (decimal 24 ++ " 0-65535".toList)) ∧
    two_tokens line_net_24_dotted = .ok (UPNPPERM_ALLOW, 0, 65535,
      "192.168.1.0".toList ++ '/' :: (dotted_quad (prefix_mask 24) ++ " 0-65535".toList)) ∧
    read_permission_line permissive_regex line_net_24 = .ok rule_net_24 ∧
    read_permission_line permissive_regex line_net_24_dotted = .ok rule_net_24 ∧
    (rule_net_24.mask = prefix_mask 24 ∧ rule_net_24.mask = prefix_mask 24 ∧
    inet_aton "192.168.1.0".toList = some rule_net_24.address ∧
    rule_net_24.address = rule_net_24.address ∧
    (∀ cand, cand < 2 ^ 32 →
      ((cand &&& rule_net_24.mask) = (rule_net_24.address &&& rule_net_24.mask) ↔
        cand / 2 ^ (32 - 24) = rule_net_24.address / 2 ^ (32 - 24))) ∧
    read_permission_line permissive_regex line_net_24 =
      (if permissive_regex.regcomp "65535".toList ≠ 0 then .error else .ok rule_net_24) ∧
    match_permission permissive_regex rule_net_24 80 (ipv4 192 168 1 5) 80 none = 1 ∧
    match_permission permissive_regex rule_net_24 80 (ipv4 192 168 2 5) 80 none = 0) :=
  ⟨by decide, rfl, rfl, rfl, rfl, by decide, by decide,
    bit_count_mask permissive_regex 24 (by decide) line_net_24 line_net_24_dotted
      rule_net_24 rule_net_24 UPNPPERM_ALLOW UPNPPERM_ALLOW 0 65535 0 65535
      "192.168.1.0".toList " 0-65535".toList " 0-65535".toList rfl rfl rfl rfl rfl
      (by decide) (by decide)⟩

/-! ## Theorems: port ranges -/

theorem iport_token_ordered (p : List Char) (a b : Nat) (r : List Char)
    (h : iport_token p = .ok (a, b, r)) : a ≤ b := by
  unfold iport_token at h
  split at h
  · cases h
  · split at h
    · split at h
      · split at h
        · cases h
        · split at h
          · cases h
          · split at h
            · cases h
            · split at h
              · cases h
              · split at h
                · cases h
                · cases h
                  omega
      · split at h
        · split at h
          · cases h
          · split at h
            · cases h
            · cases h
              exact Nat.le_refl _
        · cases h
    · split at h
      · cases h
      · split at h
        · cases h
        · cases h
          exact Nat.le_refl _

/-- Every rule built by `read_permission_line` has its two port ranges in order. -/
theorem parsed_ranges_ordered (L : RegexLib) (line : List Char) (perm : upnpperm)
    (h : read_permission_line L line = .ok perm) :
    perm.eport_min ≤ perm.eport_max ∧ perm.iport_min ≤ perm.iport_max := by
  obtain ⟨p3, p4, e3, e4, -⟩ := read_permission_line_ok L line perm h
  unfold three_tokens at e3
  obtain ⟨q2, q3, f1, -, -⟩ := three_tokens_at_ok _ _ _ _ _ _ _ e3
  obtain ⟨p1, p2, -, g2, -⟩ := two_tokens_at_ok _ _ _ _ _ f1
  exact ⟨eport_token_ordered _ _ _ _ g2, iport_token_ordered _ _ _ _ e4⟩

/-- C13, at the line "allow 4294967296-5 1.2.3.4 5": the external port range has its
lower bound above its upper bound, but the lower bound does not fit an `int`, `atoi` has
no defined result on it, and the run is undefined instead of returning -1. -/
theorem huge_range_undefined (L : RegexLib) :
    read_permission_line L line_huge_range = .undefined ∧
    atoi "4294967296".toList = none ∧ atoi "5".toList = some 5 ∧
    return_value (read_permission_line L line_huge_range) ≠ some (-1) :=
  ⟨read_permission_line_undefined L line_huge_range rfl, rfl, rfl, by
    rw [read_permission_line_undefined L line_huge_range rfl]
    decide⟩

theorem isdigit_not_isspace (c : Char) (h : isdigit c = true) : isspace c = false := by
  cases hs : isspace c with
  | false => rfl
  | true =>
    have := isspace_not_isdigit c hs
    rw [h] at this
    cases this

theorem isdigit_ne_dash (c : Char) (h : isdigit c = true) : c ≠ '-' := by
  intro hc
  subst hc
  exact absurd h (by decide)

theorem isdigit_ne_plus (c : Char) (h : isdigit c = true) : c ≠ '+' := by
  intro hc
  subst hc
  exact absurd h (by decide)

/-- On a run of digits `atoi` gives a value that is not negative. -/
theorem atoi_nonneg (ds : List Char) (i : Int) (hds : ds.all isdigit = true)
    (h : atoi ds = some i) : 0 ≤ i := by
  cases ds with
  | nil =>
    have e : atoi [] = some 0 := rfl
    rw [e] at h
    cases h
    exact Int.le_refl 0
  | cons c cs =>
    rw [List.all_cons, Bool.and_eq_true] at hds
    have hsp := isdigit_not_isspace c hds.1
    have hdash := isdigit_ne_dash c hds.1
    have hplus := isdigit_ne_plus c hds.1
    unfold atoi at h
    rw [List.dropWhile_cons_of_neg (by rw [hsp]; decide)] at h
    simp only [List.head?_cons, Option.some.injEq, hdash, hplus, or_self, if_false,
      decide_False, Bool.false_eq_true] at h
    split_ifs at h with hr
    cases h
    exact Int.ofNat_nonneg _

theorem to_u_short_of_range (i : Int) (h0 : 0 ≤ i) (h1 : ¬ i > 65535) :
    ((to_u_short i : Nat) : Int) = i := by
  unfold to_u_short
  have : i % 65536 = i := Int.emod_eq_of_lt h0 (by omega)
  rw [this]
  exact Int.toNat_of_nonneg h0

theorem takeWhile_isdigit_of_not_digit_at (rest : List Char)
    (h : isdigit_at rest = false) : rest.takeWhile isdigit = [] := by
  cases rest with
  | nil => rfl
  | cons c cs =>
    have hc : isdigit c = false := h
    rw [List.takeWhile_cons_of_neg (by rw [hc]; decide)]

theorem range_scan (d1 d2 rest : List Char) (hne : d1 ≠ [])
    (h1 : d1.all isdigit = true) (h2 : d2.all isdigit = true)
    (hrest : isdigit_at rest = false) :
    isdigit_at (d1 ++ '-' :: (d2 ++ rest)) = true ∧
    (d1 ++ '-' :: (d2 ++ rest)).dropWhile isdigit = '-' :: (d2 ++ rest) ∧
    (d1 ++ '-' :: (d2 ++ rest)).takeWhile isdigit = d1 ∧
    (d2 ++ rest).takeWhile isdigit = d2 := by
  have hdash : isdigit '-' = false := by decide
  refine ⟨?_, ?_, ?_, ?_⟩
  · rw [isdigit_at_append d1 _ hne]
    cases d1 with
    | nil => exact absurd rfl hne
    | cons c cs =>
      rw [List.all_cons, Bool.and_eq_true] at h1
      exact h1.1
  · rw [dropWhile_append_of_all isdigit d1 _ h1,
      List.dropWhile_cons_of_neg (by rw [hdash]; decide)]
  · rw [takeWhile_append_of_all isdigit d1 _ h1,
      List.takeWhile_cons_of_neg (by rw [hdash]; decide), List.append_nil]
  · rw [takeWhile_append_of_all isdigit d2 _ h2,
      takeWhile_isdigit_of_not_digit_at rest hrest, List.append_nil]

/-- An external port range `a-b` whose bounds fit an `int` and with `a > b` is
rejected. -/
theorem eport_token_range_rejected (d1 d2 rest : List Char) (a b : Int) (hne : d1 ≠ [])
    (h1 : d1.all isdigit = true) (h2 : d2.all isdigit = true)
    (hrest : isdigit_at rest = false)
    (ha : atoi d1 = some a) (hb : atoi d2 = some b) (hab : b < a) :
    eport_token (d1 ++ '-' :: (d2 ++ rest)) = .error := by
  obtain ⟨s1, s2, s3, s4⟩ := range_scan d1 d2 rest hne h1 h2 hrest
  have hb0 := atoi_nonneg d2 b h2 hb
  unfold eport_token
  rw [s1, s2, s3]
  simp only [Bool.true_eq_false, if_false, if_true]
  rw [ha, s4, hb]
  simp only []
  by_cases hi : a > 65535
  · rw [if_pos hi]
  · rw [if_neg hi]
    by_cases hi2 : b > 65535
    · rw [if_pos hi2]
    · rw [if_neg hi2]
      have ea := to_u_short_of_range a (by omega) hi
      have eb := to_u_short_of_range b hb0 hi2
      rw [if_pos (by omega)]

/-- An internal port range `a-b` whose bounds fit an `int` and with `a > b` is
rejected. -/
theorem iport_token_range_rejected (d1 d2 rest : List Char) (a b : Int) (hne : d1 ≠ [])
    (h1 : d1.all isdigit = true) (h2 : d2.all isdigit = true)
    (hrest : isdigit_at rest = false)
    (ha : atoi d1 = some a) (hb : atoi d2 = some b) (hab : b < a) :
    iport_token (d1 ++ '-' :: (d2 ++ rest)) = .error := by
  obtain ⟨s1, s2, s3, s4⟩ := range_scan d1 d2 rest hne h1 h2 hrest
  have hb0 := atoi_nonneg d2 b h2 hb
  unfold iport_token
  rw [s1, s2, s3]
  simp only [Bool.true_eq_false, if_false, if_true]
  rw [ha, s4, hb]
  simp only []
  by_cases hi : a > 65535
  · rw [if_pos hi]
  · rw [if_neg hi]
    by_cases hi2 : b > 65535
    · rw [if_pos hi2]
    · rw [if_neg hi2]
      have ea := to_u_short_of_range a (by omega) hi
      have eb := to_u_short_of_range b hb0 hi2
      rw [if_pos (by omega)]

/-- On every accepted line the rule type follows the keyword the text begins with after
its leading white space: allow when it begins with "allow", deny when it begins with
"deny". -/
theorem read_permission_line_keyword (L : RegexLib) (line : List Char) (perm : upnpperm)
    (h : read_permission_line L line = .ok perm) :
    (((c_string line).dropWhile isspace).take 5 = ['a', 'l', 'l', 'o', 'w'] ∧
      perm.type = UPNPPERM_ALLOW) ∨
    (((c_string line).dropWhile isspace).take 4 = ['d', 'e', 'n', 'y'] ∧
      perm.type = UPNPPERM_DENY) := by
  obtain ⟨p3, p4, e3, -, -⟩ := read_permission_line_ok L line perm h
  unfold three_tokens at e3
  obtain ⟨q2, q3, f1, -, -⟩ := three_tokens_at_ok _ _ _ _ _ _ _ e3
  obtain ⟨p1, p2, g1, -, -⟩ := two_tokens_at_ok _ _ _ _ _ f1
  unfold action_token at g1
  split_ifs at g1 with h5 h4
  · have e := congrArg Prod.fst (Outcome.ok.inj g1)
    exact Or.inl ⟨h5, e.symm⟩
  · have e := congrArg Prod.fst (Outcome.ok.inj g1)
    exact Or.inr ⟨h4, e.symm⟩

/-- A line that begins, after its leading white space, neither with "allow" nor with
"deny" is rejected. -/
theorem read_permission_line_bad_keyword (L : RegexLib) (line : List Char)
    (h5 : ((c_string line).dropWhile isspace).take 5 ≠ ['a', 'l', 'l', 'o', 'w'])
    (h4 : ((c_string line).dropWhile isspace).take 4 ≠ ['d', 'e', 'n', 'y']) :
    read_permission_line L line = .error := by
  unfold read_permission_line four_tokens action_token
  rw [if_neg h5, if_neg h4]
  rfl

end MiniUPnP
